import Mathlib

/-!
# Verification of the `klotski-rs` breadth-first puzzle solver

This development shallowly embeds the two source modules of the repository:

* `src/generic_solver.rs` — a generic breadth-first state-space search
  engine (`Solver::solve`), embedded as fuel-indexed structural recursion
  (`solveLoop`).  The unbounded Rust `while` loop is given an explicit fuel
  parameter; running out of fuel is the distinguished result
  `SolveResult.outOfFuel`, and the `Path::last` panic on an empty path is
  the distinguished result `SolveResult.panic`.
* `src/klotski.rs` — the Klotski instantiation of the `Puzzle` trait:
  the packed move encoding (`Move.to_u64` / `Move.from_u64`), the `u64`
  bitset of moves (`MoveSet`), move generation (`Klotski.get_possible_moves`)
  and move application (`Klotski.make_move`; the `expect("apply_move")`
  panic is modelled by an `Option` result).

Visited sets (`HashSet`/`BTreeSet` in the source) are used only through
`new`/`add`/`mem`; they are embedded as a `List` with decidable membership,
which realises exactly that capability set.
-/

/-- The `Puzzle` trait of `generic_solver.rs`.  The associated `MoveSet`
type is only ever iterated, so it is embedded as the `List` of moves in
iteration order. -/
structure Puzzle (P M : Type) where
  make_move : P → M → P
  get_possible_moves : P → List M
  is_final : P → Bool

variable {P M : Type}

/-- The inner `for each_move in path.last().get_possible_moves()` loop of
`Solver::solve`: a successor not in the visited set is added to it and the
extended path is pushed onto the next level's frontier. -/
def expandMoves [DecidableEq P] (pz : Puzzle P M) (cur : P) (path : List P) :
    List M → List P → List (List P) → List P × List (List P)
  | [], seen, todo => (seen, todo)
  | m :: ms, seen, todo =>
    let next := pz.make_move cur m
    if next ∈ seen then
      expandMoves pz cur path ms seen todo
    else
      expandMoves pz cur path ms (seen ++ [next]) (todo ++ [path ++ [next]])

/-- Outcome of processing one breadth-first level (the `for path in paths`
loop body of `Solver::solve`). -/
inductive LevelOut (P : Type) where
  | found (path : List P)
  | panic
  | next (seen : List P) (todo : List (List P))

/-- One breadth-first level of `Solver::solve`: the drained frontier is
processed path by path; a path whose last state is final is returned at
once, otherwise its successors are expanded.  `Path::last` on an empty
path is the `panic` outcome (unreachable: paths are non-empty by
construction). -/
def runLevel [DecidableEq P] (pz : Puzzle P M) :
    List (List P) → List P → List (List P) → LevelOut P
  | [], seen, todo => .next seen todo
  | path :: rest, seen, todo =>
    match path.getLast? with
    | none => .panic
    | some cur =>
      if pz.is_final cur then .found path
      else
        let st := expandMoves pz cur path (pz.get_possible_moves cur) seen todo
        runLevel pz rest st.1 st.2

/-- Result of `Solver::solve`, with the two extra-semantic outcomes of the
embedding (`outOfFuel` for a run that exceeds the fuel bound, `panic` for a
Rust panic). -/
inductive SolveResult (P : Type) where
  | outOfFuel
  | panic
  | noSolution
  | solution (path : List P)
  deriving DecidableEq

/-- The `while !self.todo.is_empty()` loop of `Solver::solve`, with fuel. -/
def solveLoop [DecidableEq P] (pz : Puzzle P M) :
    Nat → List P → List (List P) → SolveResult P
  | 0, _, _ => .outOfFuel
  | fuel + 1, seen, todo =>
    if todo.isEmpty then .noSolution
    else
      match runLevel pz todo seen [] with
      | .found path => .solution path
      | .panic => .panic
      | .next seen' todo' => solveLoop pz fuel seen' todo'

/-- `Solver::new(initial_configuration)` followed by `solve()`: the visited
set starts empty and the frontier holds the single one-element path. -/
def solve [DecidableEq P] (pz : Puzzle P M) (init : P) (fuel : Nat) :
    SolveResult P :=
  solveLoop pz fuel [] [[init]]

/-! ### Instrumented solver

The same recursion, additionally returning the final visited list and the
log of every path pushed onto a frontier during the call, in creation
order.  Erasing the instrumentation recovers the plain solver
(`solveLoopLog_fst`). -/

/-- `expandMoves`, also logging every path pushed onto the frontier. -/
def expandMovesLog [DecidableEq P] (pz : Puzzle P M) (cur : P) (path : List P) :
    List M → List P → List (List P) → List (List P) →
    List P × List (List P) × List (List P)
  | [], seen, todo, log => (seen, todo, log)
  | m :: ms, seen, todo, log =>
    let next := pz.make_move cur m
    if next ∈ seen then
      expandMovesLog pz cur path ms seen todo log
    else
      expandMovesLog pz cur path ms (seen ++ [next]) (todo ++ [path ++ [next]])
        (log ++ [path ++ [next]])

/-- `runLevel`, logging pushed paths. -/
def runLevelLog [DecidableEq P] (pz : Puzzle P M) :
    List (List P) → List P → List (List P) → List (List P) →
    LevelOut P × List P × List (List P)
  | [], seen, todo, log => (.next seen todo, seen, log)
  | path :: rest, seen, todo, log =>
    match path.getLast? with
    | none => (.panic, seen, log)
    | some cur =>
      if pz.is_final cur then (.found path, seen, log)
      else
        let st := expandMovesLog pz cur path (pz.get_possible_moves cur) seen todo log
        runLevelLog pz rest st.1 st.2.1 st.2.2

/-- `solveLoop`, returning also the final visited list and the log of
created paths. -/
def solveLoopLog [DecidableEq P] (pz : Puzzle P M) :
    Nat → List P → List (List P) → List (List P) →
    SolveResult P × List P × List (List P)
  | 0, seen, _, log => (.outOfFuel, seen, log)
  | fuel + 1, seen, todo, log =>
    if todo.isEmpty then (.noSolution, seen, log)
    else
      match runLevelLog pz todo seen [] log with
      | (.found path, seen', log') => (.solution path, seen', log')
      | (.panic, seen', log') => (.panic, seen', log')
      | (.next seen' todo', _, log') => solveLoopLog pz fuel seen' todo' log'

/-- The `impl Puzzle for i32` of the solver's test module: moves `-1` and
`+2` from every state, goal state `10`.  `i32` arithmetic is embedded as
two's-complement (balanced-mod) arithmetic on `Int`. -/
def i32Puzzle : Puzzle Int Int where
  make_move s m := Int.bmod (s + m) (2 ^ 32)
  get_possible_moves _ := [-1, 2]
  is_final s := s == 10

example : solve i32Puzzle 1 7 = .solution [1, 0, 2, 4, 6, 8, 10] := by decide

/-! ### Semantics: steps, reachability, path validity -/

/-- One legal transition of the puzzle: some currently possible move takes
`s` to `t`. -/
def stepRel (pz : Puzzle P M) (s t : P) : Prop :=
  ∃ m ∈ pz.get_possible_moves s, t = pz.make_move s m

/-- `reachN pz init n s`: `s` is reachable from `init` in exactly `n` moves. -/
def reachN (pz : Puzzle P M) (init : P) : Nat → P → Prop
  | 0, s => s = init
  | n + 1, s => ∃ t, reachN pz init n t ∧ stepRel pz t s

/-- Reachability in any number of moves. -/
def reachable (pz : Puzzle P M) (init s : P) : Prop :=
  ∃ n, reachN pz init n s

/-- `s` is at breadth-first depth exactly `n` from `init`. -/
def minReach (pz : Puzzle P M) (init : P) (n : Nat) (s : P) : Prop :=
  reachN pz init n s ∧ ∀ i < n, ¬ reachN pz init i s

/-- A frontier path as maintained by the solver: non-empty, starting at the
initial state, with every consecutive pair a legal transition. -/
def ValidPath (pz : Puzzle P M) (init : P) (p : List P) : Prop :=
  p ≠ [] ∧ p.head? = some init ∧ List.Chain' (stepRel pz) p

/-- The last states of the paths of a frontier. -/
def endsOf (todo : List (List P)) : List P :=
  todo.filterMap List.getLast?

lemma mem_endsOf {todo : List (List P)} {s : P} :
    s ∈ endsOf todo ↔ ∃ p ∈ todo, p.getLast? = some s := by
  simp [endsOf, List.mem_filterMap]

lemma reachN_succ {pz : Puzzle P M} {init : P} {n : Nat} {s : P} :
    reachN pz init (n + 1) s ↔ ∃ t, reachN pz init n t ∧ stepRel pz t s :=
  Iff.rfl

/-- Every state reachable in `n` moves has an exact breadth-first depth
`d ≤ n`. -/
lemma exists_minReach {pz : Puzzle P M} {init : P} :
    ∀ {n s}, reachN pz init n s → ∃ d ≤ n, minReach pz init d s := by
  intro n
  induction n using Nat.strong_induction_on with
  | _ n ih =>
    intro s hs
    by_cases h : ∀ i < n, ¬ reachN pz init i s
    · exact ⟨n, le_rfl, hs, h⟩
    · push_neg at h
      obtain ⟨i, hi, hreach⟩ := h
      obtain ⟨d, hd, hmin⟩ := ih i hi hreach
      exact ⟨d, le_trans hd (le_of_lt hi), hmin⟩

/-- A state at depth `k + 1` has a predecessor at depth exactly `k`. -/
lemma minReach_pred {pz : Puzzle P M} {init : P} {k : Nat} {s : P}
    (h : minReach pz init (k + 1) s) :
    ∃ t, minReach pz init k t ∧ stepRel pz t s := by
  obtain ⟨⟨t, ht, hstep⟩, hmin⟩ := h
  refine ⟨t, ⟨ht, fun i hi hr => ?_⟩, hstep⟩
  exact hmin (i + 1) (Nat.succ_lt_succ hi) ⟨t, hr, hstep⟩

/-- If no state sits at depth exactly `k`, no state sits at any depth
`j ≥ k` either. -/
lemma minReach_none_above {pz : Puzzle P M} {init : P} {k : Nat}
    (h : ∀ s, ¬ minReach pz init k s) :
    ∀ j, k ≤ j → ∀ s, ¬ minReach pz init j s := by
  intro j hj
  induction j, hj using Nat.le_induction with
  | base => exact h
  | succ j _ ih =>
    intro s hs
    obtain ⟨t, ht, _⟩ := minReach_pred hs
    exact ih t ht

/-- The last state of a valid path of length `n + 1` is reachable in `n`
moves. -/
lemma ValidPath.reachN_getLast {pz : Puzzle P M} {init : P} :
    ∀ {p : List P}, ValidPath pz init p → ∀ {e}, p.getLast? = some e →
      reachN pz init (p.length - 1) e := by
  intro p
  induction p using List.reverseRecOn with
  | nil => intro h; exact absurd rfl h.1
  | append_singleton q a ih =>
    intro h e he
    rw [List.getLast?_concat] at he
    cases he
    rcases q.eq_nil_or_concat with rfl | ⟨r, b, hrb⟩
    · -- q = []
      have : a = init := by simpa using h.2.1
      subst this
      simp [reachN]
    · simp only [List.concat_eq_append] at hrb
      subst hrb
      have hq' : r ++ [b] ≠ [] := by simp
      have hhead : (r ++ [b]).head? = some init := by
        have h2 := h.2.1
        rwa [List.head?_append_of_ne_nil _ hq'] at h2
      have hchain := h.2.2
      rw [List.chain'_append] at hchain
      obtain ⟨hc1, _, hc3⟩ := hchain
      have hstep : stepRel pz b a := by
        refine hc3 b ?_ a rfl
        simp [List.getLast?_concat]
      have hvalid : ValidPath pz init (r ++ [b]) := ⟨hq', hhead, hc1⟩
      have hlast : (r ++ [b]).getLast? = some b := List.getLast?_concat r
      have := ih hvalid hlast
      have hlen : (r ++ [b] ++ [a]).length - 1 = ((r ++ [b]).length - 1) + 1 := by
        simp
      rw [hlen]
      exact ⟨b, this, hstep⟩

/-- Extending a valid path by one legal step keeps it valid. -/
lemma ValidPath.append {pz : Puzzle P M} {init : P} {p : List P} {cur s : P}
    (h : ValidPath pz init p) (hlast : p.getLast? = some cur)
    (hstep : stepRel pz cur s) : ValidPath pz init (p ++ [s]) := by
  refine ⟨by simp, ?_, ?_⟩
  · rw [List.head?_append_of_ne_nil _ h.1]
    exact h.2.1
  · rw [List.chain'_append]
    refine ⟨h.2.2, List.chain'_singleton s, ?_⟩
    intro x hx y hy
    rw [hlast] at hx
    cases hx
    cases hy
    exact hstep

/-! ### The level invariant of the breadth-first loop -/

/-- Everything `expandMoves` does, in one induction: the visited list only
grows, and it grows exactly by the last states of the paths pushed onto the
next frontier; every possible successor of `cur` ends up visited; the
visited list stays duplicate-free; insertions and pushes happen in
lockstep. -/
lemma expandMoves_spec [DecidableEq P] (pz : Puzzle P M) (cur : P) (path : List P) :
    ∀ (ms : List M) (seen : List P) (todo : List (List P)),
      (∀ m ∈ ms, m ∈ pz.get_possible_moves cur) →
      (∀ s ∈ seen, s ∈ (expandMoves pz cur path ms seen todo).1) ∧
      (∀ s ∈ (expandMoves pz cur path ms seen todo).1,
        s ∈ seen ∨ (stepRel pz cur s ∧ path ++ [s] ∈ (expandMoves pz cur path ms seen todo).2)) ∧
      (∀ q ∈ todo, q ∈ (expandMoves pz cur path ms seen todo).2) ∧
      (∀ q ∈ (expandMoves pz cur path ms seen todo).2,
        q ∈ todo ∨ ∃ s, stepRel pz cur s ∧ s ∈ (expandMoves pz cur path ms seen todo).1 ∧
          q = path ++ [s]) ∧
      (∀ m ∈ ms, pz.make_move cur m ∈ (expandMoves pz cur path ms seen todo).1) ∧
      (seen.Nodup → (expandMoves pz cur path ms seen todo).1.Nodup) ∧
      ((expandMoves pz cur path ms seen todo).1.length + todo.length
        = seen.length + (expandMoves pz cur path ms seen todo).2.length) := by
  intro ms
  induction ms with
  | nil =>
    intro seen todo _
    simp only [expandMoves]
    refine ⟨fun s hs => hs, fun s hs => Or.inl hs, fun q hq => hq,
      fun q hq => Or.inl hq, by simp, fun h => h, by simp⟩
  | cons m ms ih =>
    intro seen todo hms
    have hm : m ∈ pz.get_possible_moves cur := hms m (List.mem_cons_self m ms)
    have hms' : ∀ m' ∈ ms, m' ∈ pz.get_possible_moves cur :=
      fun m' hm' => hms m' (List.mem_cons_of_mem m hm')
    by_cases hmem : pz.make_move cur m ∈ seen
    · have heq : expandMoves pz cur path (m :: ms) seen todo
          = expandMoves pz cur path ms seen todo := by
        simp only [expandMoves, if_pos hmem]
      rw [heq]
      obtain ⟨e1, e2, e3, e4, e5, e6, e7⟩ := ih seen todo hms'
      refine ⟨e1, e2, e3, e4, ?_, e6, e7⟩
      intro m' hm'
      rcases List.mem_cons.mp hm' with rfl | hm'
      · exact e1 _ hmem
      · exact e5 m' hm'
    · have heq : expandMoves pz cur path (m :: ms) seen todo
          = expandMoves pz cur path ms (seen ++ [pz.make_move cur m])
              (todo ++ [path ++ [pz.make_move cur m]]) := by
        simp only [expandMoves, if_neg hmem]
      rw [heq]
      obtain ⟨e1, e2, e3, e4, e5, e6, e7⟩ :=
        ih (seen ++ [pz.make_move cur m]) (todo ++ [path ++ [pz.make_move cur m]]) hms'
      have hstep : stepRel pz cur (pz.make_move cur m) := ⟨m, hm, rfl⟩
      refine ⟨?_, ?_, ?_, ?_, ?_, ?_, ?_⟩
      · intro s hs
        exact e1 s (List.mem_append_left _ hs)
      · intro s hs
        rcases e2 s hs with hs' | hs'
        · rcases List.mem_append.mp hs' with h | h
          · exact Or.inl h
          · rcases List.mem_singleton.mp h with rfl
            exact Or.inr ⟨hstep, e3 _ (List.mem_append_right _ (List.mem_singleton.mpr rfl))⟩
        · exact Or.inr hs'
      · intro q hq
        exact e3 q (List.mem_append_left _ hq)
      · intro q hq
        rcases e4 q hq with hq' | hq'
        · rcases List.mem_append.mp hq' with h | h
          · exact Or.inl h
          · rcases List.mem_singleton.mp h with rfl
            exact Or.inr ⟨pz.make_move cur m, hstep,
              e1 _ (List.mem_append_right _ (List.mem_singleton.mpr rfl)), rfl⟩
        · exact Or.inr hq'
      · intro m' hm'
        rcases List.mem_cons.mp hm' with rfl | hm'
        · exact e1 _ (List.mem_append_right _ (List.mem_singleton.mpr rfl))
        · exact e5 m' hm'
      · intro hnd
        refine e6 ?_
        simp only [List.nodup_append, List.nodup_cons, List.nodup_nil, and_true,
          List.mem_singleton]
        exact ⟨hnd, by simp, by simpa using hmem⟩
      · simp only [List.length_append, List.length_singleton] at e7 ⊢
        omega

/-- Invariant at the start of a level of `Solver::solve`: `todo` is the
depth-`k` frontier, `seen` holds exactly states first produced at depths
`1..k`, every state of exact depth `k` is the last state of some frontier
path, and every state strictly shallower than `k` has already been checked
and found non-final. -/
structure LoopInv [DecidableEq P] (pz : Puzzle P M) (init : P) (k : Nat)
    (seen : List P) (todo : List (List P)) : Prop where
  vpaths : ∀ p ∈ todo, ValidPath pz init p ∧ p.length = k + 1
  snd : ∀ s ∈ seen, ∃ j, 1 ≤ j ∧ j ≤ k ∧ reachN pz init j s
  nodup : seen.Nodup
  frontier : ∀ s, minReach pz init k s → s ∈ endsOf todo
  shallow : ∀ j s, j < k → minReach pz init j s → pz.is_final s = false

/-- Invariant holding midway through a level: `rest` is the unprocessed
part of the depth-`k` frontier, `seen'` and `todo'` the partially built
visited list and next frontier. -/
structure MidInv (pz : Puzzle P M) (init : P) (k : Nat) (seen₀ : List P)
    (rest : List (List P)) (seen' : List P) (todo' : List (List P)) : Prop where
  vnew : ∀ p ∈ todo', ValidPath pz init p ∧ p.length = k + 2
  vrest : ∀ p ∈ rest, ValidPath pz init p ∧ p.length = k + 1
  origin : ∀ s ∈ seen', s ∈ seen₀ ∨ s ∈ endsOf todo'
  sndAll : ∀ s ∈ seen', ∃ j, 1 ≤ j ∧ j ≤ k + 1 ∧ reachN pz init j s
  nodup : seen'.Nodup
  front : ∀ s, minReach pz init (k + 1) s →
    s ∈ endsOf todo' ∨ ∃ t, minReach pz init k t ∧ stepRel pz t s ∧ t ∈ endsOf rest
  check : ∀ s, minReach pz init k s → s ∈ endsOf rest ∨ pz.is_final s = false
  growth : seen'.length = seen₀.length + todo'.length

/-- What one level of the loop guarantees: no panic; a found path is a
valid depth-`k` path ending in a final state; a completed level
re-establishes the invariant one level deeper and certifies that no state
of exact depth `k` is final. -/
def PostLevel (pz : Puzzle P M) (init : P) (k : Nat) (seen₀ : List P) :
    LevelOut P → Prop
  | .panic => False
  | .found p => ValidPath pz init p ∧ p.length = k + 1 ∧
      ∃ e, p.getLast? = some e ∧ pz.is_final e = true
  | .next seen'' todo'' =>
      (∀ p ∈ todo'', ValidPath pz init p ∧ p.length = k + 2) ∧
      (∀ s ∈ seen'', ∃ j, 1 ≤ j ∧ j ≤ k + 1 ∧ reachN pz init j s) ∧
      seen''.Nodup ∧
      (∀ s, minReach pz init (k + 1) s → s ∈ endsOf todo'') ∧
      (∀ s, minReach pz init k s → pz.is_final s = false) ∧
      seen''.length = seen₀.length + todo''.length

/-- Processing one level never panics, returns only valid final-ended
paths, and otherwise re-establishes the invariant one level deeper. -/
lemma runLevel_inv [DecidableEq P] (pz : Puzzle P M) (init : P) (k : Nat)
    (seen₀ : List P)
    (h₀ : ∀ s ∈ seen₀, ∃ j, 1 ≤ j ∧ j ≤ k ∧ reachN pz init j s) :
    ∀ (rest : List (List P)) (seen' : List P) (todo' : List (List P)),
      MidInv pz init k seen₀ rest seen' todo' →
      PostLevel pz init k seen₀ (runLevel pz rest seen' todo') := by
  intro rest
  induction rest with
  | nil =>
    intro seen' todo' mid
    simp only [runLevel, PostLevel]
    refine ⟨mid.vnew, mid.sndAll, mid.nodup, ?_, ?_, mid.growth⟩
    · intro s hs
      rcases mid.front s hs with h | ⟨t, _, _, ht⟩
      · exact h
      · rcases mem_endsOf.mp ht with ⟨p, hp, _⟩
        exact absurd hp (List.not_mem_nil p)
    · intro s hs
      rcases mid.check s hs with h | h
      · rcases mem_endsOf.mp h with ⟨p, hp, _⟩
        exact absurd hp (List.not_mem_nil p)
      · exact h
  | cons path rest' ih =>
    intro seen' todo' mid
    obtain ⟨hvpath, hlen⟩ := mid.vrest path (List.mem_cons_self path rest')
    obtain ⟨cur, hcur⟩ := Option.isSome_iff_exists.mp (List.getLast?_isSome.mpr hvpath.1)
    by_cases hfin : pz.is_final cur
    · have heq : runLevel pz (path :: rest') seen' todo' = .found path := by
        simp only [runLevel, hcur, if_pos hfin]
      rw [heq]
      exact ⟨hvpath, hlen, cur, hcur, hfin⟩
    · have heq : runLevel pz (path :: rest') seen' todo'
          = runLevel pz rest'
              (expandMoves pz cur path (pz.get_possible_moves cur) seen' todo').1
              (expandMoves pz cur path (pz.get_possible_moves cur) seen' todo').2 := by
        simp only [runLevel, hcur, if_neg hfin]
      rw [heq]
      obtain ⟨e1, e2, e3, e4, e5, e6, e7⟩ :=
        expandMoves_spec pz cur path (pz.get_possible_moves cur) seen' todo'
          (fun m hm => hm)
      have hcurk : reachN pz init k cur := by
        have := hvpath.reachN_getLast hcur
        rwa [hlen, Nat.add_sub_cancel] at this
      -- membership in the next frontier is preserved by expansion
      have hendsmono : ∀ s, s ∈ endsOf todo' →
          s ∈ endsOf (expandMoves pz cur path (pz.get_possible_moves cur) seen' todo').2 := by
        intro s hs
        rcases mem_endsOf.mp hs with ⟨p, hp, hpl⟩
        exact mem_endsOf.mpr ⟨p, e3 p hp, hpl⟩
      -- everything in the new visited list is old or is the end of a new path
      have horigin : ∀ s ∈ (expandMoves pz cur path (pz.get_possible_moves cur) seen' todo').1,
          s ∈ seen₀ ∨
            s ∈ endsOf (expandMoves pz cur path (pz.get_possible_moves cur) seen' todo').2 := by
        intro s hs
        rcases e2 s hs with hs' | ⟨_, hmem⟩
        · rcases mid.origin s hs' with h | h
          · exact Or.inl h
          · exact Or.inr (hendsmono s h)
        · exact Or.inr (mem_endsOf.mpr ⟨path ++ [s], hmem, List.getLast?_concat path⟩)
      refine ih _ _ ⟨?_, ?_, horigin, ?_, e6 mid.nodup, ?_, ?_, ?_⟩
      · -- vnew
        intro q hq
        rcases e4 q hq with hq' | ⟨s, hstep, _, rfl⟩
        · exact mid.vnew q hq'
        · refine ⟨hvpath.append hcur hstep, ?_⟩
          simp [hlen]
      · -- vrest
        exact fun p hp => mid.vrest p (List.mem_cons_of_mem path hp)
      · -- sndAll
        intro s hs
        rcases e2 s hs with hs' | ⟨hstep, _⟩
        · exact mid.sndAll s hs'
        · exact ⟨k + 1, by omega, le_rfl, cur, hcurk, hstep⟩
      · -- front
        intro s hs
        rcases mid.front s hs with h | ⟨t, htmin, htstep, htends⟩
        · exact Or.inl (hendsmono s h)
        · rcases mem_endsOf.mp htends with ⟨p, hp, hpl⟩
          rcases List.mem_cons.mp hp with rfl | hp'
          · -- the processed path: its end `cur` is the predecessor of `s`
            have : t = cur := by rw [hcur] at hpl; exact (Option.some_inj.mp hpl).symm ▸ rfl
            subst this
            obtain ⟨m, hm, rfl⟩ := htstep
            have hsin := e5 m hm
            rcases horigin _ hsin with h₀mem | hends
            · obtain ⟨j, hj1, hjk, hjr⟩ := h₀ _ h₀mem
              exact absurd hjr (hs.2 j (by omega))
            · exact Or.inl hends
          · exact Or.inr ⟨t, htmin, htstep, mem_endsOf.mpr ⟨p, hp', hpl⟩⟩
      · -- check
        intro s hs
        rcases mid.check s hs with h | h
        · rcases mem_endsOf.mp h with ⟨p, hp, hpl⟩
          rcases List.mem_cons.mp hp with rfl | hp'
          · have : s = cur := by rw [hcur] at hpl; exact (Option.some_inj.mp hpl).symm
            subst this
            exact Or.inr (Bool.not_eq_true _ ▸ by simpa using hfin)
          · exact Or.inl (mem_endsOf.mpr ⟨p, hp', hpl⟩)
        · exact Or.inr h
      · -- growth
        have hg := mid.growth
        omega

/-- What `solveLoop` guarantees about each possible result: it never
returns the `panic` marker; a `noSolution` result certifies that no
reachable state is final; a returned solution is a valid path from the
initial state whose length is one more than the exact breadth-first depth
of its final last state, with no final state strictly shallower. -/
def SolveSpec (pz : Puzzle P M) (init : P) : SolveResult P → Prop
  | .outOfFuel => True
  | .panic => False
  | .noSolution => ¬ ∃ s, reachable pz init s ∧ pz.is_final s = true
  | .solution p =>
      ValidPath pz init p ∧
      ∃ k, p.length = k + 1 ∧
        (∃ e, p.getLast? = some e ∧ pz.is_final e = true ∧ reachN pz init k e) ∧
        (∀ j s, j < k → reachN pz init j s → pz.is_final s = false)

/-- The main induction over the fuel: the level invariant entails the
result specification. -/
lemma solveLoop_spec [DecidableEq P] (pz : Puzzle P M) (init : P) :
    ∀ (fuel : Nat) (k : Nat) (seen : List P) (todo : List (List P)),
      LoopInv pz init k seen todo →
      SolveSpec pz init (solveLoop pz fuel seen todo) := by
  intro fuel
  induction fuel with
  | zero => intro k seen todo _; simp [solveLoop, SolveSpec]
  | succ fuel ih =>
    intro k seen todo inv
    by_cases hemp : todo.isEmpty
    · have heq : solveLoop pz (fuel + 1) seen todo = .noSolution := by
        simp [solveLoop, hemp]
      rw [heq]
      have htodo : todo = [] := List.isEmpty_iff.mp hemp
      subst htodo
      rintro ⟨s, ⟨n, hn⟩, hfin⟩
      obtain ⟨d, _, hdmin⟩ := exists_minReach hn
      rcases lt_or_le d k with hdk | hdk
      · rw [inv.shallow d s hdk hdmin] at hfin
        exact Bool.false_ne_true hfin
      · have hnone : ∀ t, ¬ minReach pz init k t := by
          intro t ht
          rcases mem_endsOf.mp (inv.frontier t ht) with ⟨p, hp, _⟩
          exact absurd hp (List.not_mem_nil p)
        exact minReach_none_above hnone d hdk s hdmin
    · -- build the mid-level invariant at the start of the level
      have mid0 : MidInv pz init k seen todo seen [] := by
        refine ⟨by simp, inv.vpaths, fun s hs => Or.inl hs, ?_, inv.nodup, ?_, ?_, by simp⟩
        · intro s hs
          obtain ⟨j, h1, h2, h3⟩ := inv.snd s hs
          exact ⟨j, h1, by omega, h3⟩
        · intro s hs
          obtain ⟨t, htmin, htstep⟩ := minReach_pred hs
          exact Or.inr ⟨t, htmin, htstep, inv.frontier t htmin⟩
        · intro s hs
          exact Or.inl (inv.frontier s hs)
      have hpost := runLevel_inv pz init k seen inv.snd todo seen [] mid0
      -- the derived shallow fact, used in both return cases
      have hshallow : ∀ j s, j < k → reachN pz init j s → pz.is_final s = false := by
        intro j s hj hr
        obtain ⟨d, hd, hdmin⟩ := exists_minReach hr
        exact inv.shallow d s (by omega) hdmin
      cases hout : runLevel pz todo seen [] with
      | panic =>
        rw [hout] at hpost
        exact hpost.elim
      | found p =>
        have heq : solveLoop pz (fuel + 1) seen todo = .solution p := by
          simp [solveLoop, hemp, hout]
        rw [hout] at hpost
        simp only [PostLevel] at hpost
        obtain ⟨hvalid, hlen, e, he, hef⟩ := hpost
        rw [heq]
        refine ⟨hvalid, k, hlen, ⟨e, he, hef, ?_⟩, hshallow⟩
        have := hvalid.reachN_getLast he
        rwa [hlen, Nat.add_sub_cancel] at this
      | next seen' todo' =>
        have heq : solveLoop pz (fuel + 1) seen todo = solveLoop pz fuel seen' todo' := by
          simp [solveLoop, hemp, hout]
        rw [hout] at hpost
        simp only [PostLevel] at hpost
        obtain ⟨p1, p2, p3, p4, p5, _⟩ := hpost
        rw [heq]
        refine ih (k + 1) seen' todo' ⟨p1, p2, p3, p4, ?_⟩
        intro j s hj hjmin
        rcases Nat.lt_succ_iff_lt_or_eq.mp hj with hj' | rfl
        · exact inv.shallow j s hj' hjmin
        · exact p5 s hjmin

/-- The starting state of `solve` satisfies the level invariant at depth 0. -/
lemma LoopInv_init [DecidableEq P] (pz : Puzzle P M) (init : P) :
    LoopInv pz init 0 [] [[init]] := by
  refine ⟨?_, by simp, List.nodup_nil, ?_, by omega⟩
  · intro p hp
    rcases List.mem_singleton.mp hp with rfl
    exact ⟨⟨by simp, rfl, List.chain'_singleton init⟩, rfl⟩
  · intro s hs
    have : s = init := hs.1
    subst this
    exact mem_endsOf.mpr ⟨[s], List.mem_singleton.mpr rfl, rfl⟩

/-- The result specification, at the top level. -/
lemma solve_spec [DecidableEq P] (pz : Puzzle P M) (init : P) (fuel : Nat) :
    SolveSpec pz init (solve pz init fuel) :=
  solveLoop_spec pz init fuel 0 [] [[init]] (LoopInv_init pz init)

/-- A completed level re-establishes the invariant one level deeper, with
the visited list grown by exactly the size of the new frontier. -/
lemma LoopInv_next [DecidableEq P] {pz : Puzzle P M} {init : P} {k : Nat}
    {seen seen' : List P} {todo todo' : List (List P)}
    (inv : LoopInv pz init k seen todo)
    (hout : runLevel pz todo seen [] = .next seen' todo') :
    LoopInv pz init (k + 1) seen' todo' ∧ seen'.length = seen.length + todo'.length := by
  have mid0 : MidInv pz init k seen todo seen [] := by
    refine ⟨by simp, inv.vpaths, fun s hs => Or.inl hs, ?_, inv.nodup, ?_, ?_, by simp⟩
    · intro s hs
      obtain ⟨j, h1, h2, h3⟩ := inv.snd s hs
      exact ⟨j, h1, by omega, h3⟩
    · intro s hs
      obtain ⟨t, htmin, htstep⟩ := minReach_pred hs
      exact Or.inr ⟨t, htmin, htstep, inv.frontier t htmin⟩
    · intro s hs
      exact Or.inl (inv.frontier s hs)
  have hpost := runLevel_inv pz init k seen inv.snd todo seen [] mid0
  rw [hout] at hpost
  simp only [PostLevel] at hpost
  obtain ⟨p1, p2, p3, p4, p5, p6⟩ := hpost
  refine ⟨⟨p1, p2, p3, p4, ?_⟩, p6⟩
  intro j s hj hjmin
  rcases Nat.lt_succ_iff_lt_or_eq.mp hj with hj' | rfl
  · exact inv.shallow j s hj' hjmin
  · exact p5 s hjmin

/-- With the level invariant, the visited list fits inside any finite
over-approximation of the reachable states. -/
lemma LoopInv.card_le [DecidableEq P] {pz : Puzzle P M} {init : P} {k : Nat}
    {seen : List P} {todo : List (List P)}
    (inv : LoopInv pz init k seen todo)
    (A : Finset P) (hA : ∀ s, reachable pz init s → s ∈ A) :
    seen.length ≤ A.card := by
  have hsub : seen.toFinset ⊆ A := by
    intro s hs
    obtain ⟨j, _, _, hr⟩ := inv.snd s (List.mem_toFinset.mp hs)
    exact hA s ⟨j, hr⟩
  calc seen.length = seen.toFinset.card := (List.toFinset_card_of_nodup inv.nodup).symm
    _ ≤ A.card := Finset.card_le_card hsub

/-- Fuel bound: if the reachable state space fits inside a finite set `A`,
then fuel `A.card + 2` (minus the states already visited) never runs out. -/
lemma solveLoop_no_fuel_out [DecidableEq P] (pz : Puzzle P M) (init : P)
    (A : Finset P) (hA : ∀ s, reachable pz init s → s ∈ A) :
    ∀ (fuel k : Nat) (seen : List P) (todo : List (List P)),
      LoopInv pz init k seen todo →
      A.card + 2 ≤ fuel + seen.length →
      solveLoop pz fuel seen todo ≠ .outOfFuel := by
  intro fuel
  induction fuel with
  | zero =>
    intro k seen todo inv hbound
    have := inv.card_le A hA
    omega
  | succ fuel ih =>
    intro k seen todo inv hbound
    by_cases hemp : todo.isEmpty
    · simp [solveLoop, hemp]
    · cases hout : runLevel pz todo seen [] with
      | panic => simp [solveLoop, hemp, hout]
      | found p => simp [solveLoop, hemp, hout]
      | next seen' todo' =>
        obtain ⟨inv', hlen⟩ := LoopInv_next inv hout
        have heq : solveLoop pz (fuel + 1) seen todo = solveLoop pz fuel seen' todo' := by
          simp [solveLoop, hemp, hout]
        rw [heq]
        rcases List.eq_nil_or_concat todo' with rfl | ⟨q, b, hq⟩
        · cases fuel with
          | zero =>
            have := inv.card_le A hA
            omega
          | succ fuel' => simp [solveLoop]
        · have htodo' : 1 ≤ todo'.length := by
            subst hq; simp
          exact ih (k + 1) seen' todo' inv' (by omega)

/-- Once the fuel suffices, adding more fuel does not change the result. -/
lemma solveLoop_mono [DecidableEq P] (pz : Puzzle P M) :
    ∀ (fuel fuel' : Nat) (seen : List P) (todo : List (List P)),
      fuel ≤ fuel' → solveLoop pz fuel seen todo ≠ .outOfFuel →
      solveLoop pz fuel' seen todo = solveLoop pz fuel seen todo := by
  intro fuel
  induction fuel with
  | zero =>
    intro fuel' seen todo _ h
    exact absurd rfl h
  | succ fuel ih =>
    intro fuel' seen todo hle h
    obtain ⟨fuel'', rfl⟩ : ∃ f, fuel' = f + 1 := ⟨fuel' - 1, by omega⟩
    by_cases hemp : todo.isEmpty
    · simp [solveLoop, hemp]
    · cases hout : runLevel pz todo seen [] with
      | panic => simp [solveLoop, hemp, hout]
      | found p => simp [solveLoop, hemp, hout]
      | next seen' todo' =>
        have e1 : solveLoop pz (fuel + 1) seen todo = solveLoop pz fuel seen' todo' := by
          simp [solveLoop, hemp, hout]
        have e2 : solveLoop pz (fuel'' + 1) seen todo = solveLoop pz fuel'' seen' todo' := by
          simp [solveLoop, hemp, hout]
        rw [e1] at h
        rw [e1, e2]
        exact ih fuel'' seen' todo' (by omega) h

/-! ### The no-revisit invariant, on the instrumented solver -/

/-- `expandMovesLog` keeps the visited list duplicate-free and keeps the
log of created paths in one-to-one, order-preserving correspondence with
the visited list (each created path's last state is the state inserted at
its creation). -/
lemma expandMovesLog_inv [DecidableEq P] (pz : Puzzle P M) (cur : P) (path : List P) :
    ∀ (ms : List M) (seen : List P) (todo log : List (List P)),
      seen.Nodup → log.map List.getLast? = seen.map some →
      (expandMovesLog pz cur path ms seen todo log).1.Nodup ∧
      (expandMovesLog pz cur path ms seen todo log).2.2.map List.getLast?
        = (expandMovesLog pz cur path ms seen todo log).1.map some := by
  intro ms
  induction ms with
  | nil =>
    intro seen todo log hnd hmap
    exact ⟨hnd, hmap⟩
  | cons m ms ih =>
    intro seen todo log hnd hmap
    by_cases hmem : pz.make_move cur m ∈ seen
    · have heq : expandMovesLog pz cur path (m :: ms) seen todo log
          = expandMovesLog pz cur path ms seen todo log := by
        simp only [expandMovesLog, if_pos hmem]
      rw [heq]
      exact ih seen todo log hnd hmap
    · have heq : expandMovesLog pz cur path (m :: ms) seen todo log
          = expandMovesLog pz cur path ms (seen ++ [pz.make_move cur m])
              (todo ++ [path ++ [pz.make_move cur m]])
              (log ++ [path ++ [pz.make_move cur m]]) := by
        simp only [expandMovesLog, if_neg hmem]
      rw [heq]
      refine ih _ _ _ ?_ ?_
      · simp only [List.nodup_append, List.nodup_cons, List.nodup_nil, and_true,
          List.mem_singleton]
        exact ⟨hnd, by simp, by simpa using hmem⟩
      · simp [hmap, List.getLast?_concat]

/-- The same invariant across one level. -/
lemma runLevelLog_inv [DecidableEq P] (pz : Puzzle P M) :
    ∀ (rest : List (List P)) (seen : List P) (todo log : List (List P)),
      seen.Nodup → log.map List.getLast? = seen.map some →
      (runLevelLog pz rest seen todo log).2.1.Nodup ∧
      (runLevelLog pz rest seen todo log).2.2.map List.getLast?
        = (runLevelLog pz rest seen todo log).2.1.map some := by
  intro rest
  induction rest with
  | nil =>
    intro seen todo log hnd hmap
    exact ⟨hnd, hmap⟩
  | cons path rest' ih =>
    intro seen todo log hnd hmap
    cases hlast : path.getLast? with
    | none =>
      have heq : runLevelLog pz (path :: rest') seen todo log = (.panic, seen, log) := by
        simp only [runLevelLog, hlast]
      rw [heq]
      exact ⟨hnd, hmap⟩
    | some cur =>
      by_cases hfin : pz.is_final cur
      · have heq : runLevelLog pz (path :: rest') seen todo log = (.found path, seen, log) := by
          simp only [runLevelLog, hlast, if_pos hfin]
        rw [heq]
        exact ⟨hnd, hmap⟩
      · have heq : runLevelLog pz (path :: rest') seen todo log
            = runLevelLog pz rest'
                (expandMovesLog pz cur path (pz.get_possible_moves cur) seen todo log).1
                (expandMovesLog pz cur path (pz.get_possible_moves cur) seen todo log).2.1
                (expandMovesLog pz cur path (pz.get_possible_moves cur) seen todo log).2.2 := by
          simp only [runLevelLog, hlast, if_neg hfin]
        rw [heq]
        obtain ⟨h1, h2⟩ :=
          expandMovesLog_inv pz cur path (pz.get_possible_moves cur) seen todo log hnd hmap
        exact ih _ _ _ h1 h2

/-- The `next` outcome of a level carries the level's final visited list. -/
lemma runLevelLog_next_seen [DecidableEq P] (pz : Puzzle P M) :
    ∀ (rest : List (List P)) (seen : List P) (todo log : List (List P))
      (a : List P) (b : List (List P)),
      (runLevelLog pz rest seen todo log).1 = .next a b →
      a = (runLevelLog pz rest seen todo log).2.1 := by
  intro rest
  induction rest with
  | nil =>
    intro seen todo log a b h
    simp only [runLevelLog] at h ⊢
    cases h
    rfl
  | cons path rest' ih =>
    intro seen todo log a b h
    cases hlast : path.getLast? with
    | none => rw [runLevelLog, hlast] at h ⊢; cases h
    | some cur =>
      by_cases hfin : pz.is_final cur
      · rw [runLevelLog, hlast] at h ⊢
        simp only [if_pos hfin] at h
        cases h
      · rw [runLevelLog, hlast] at h ⊢
        simp only [if_neg hfin] at h ⊢
        exact ih _ _ _ a b h

/-- Across a whole (instrumented) run: the visited list stays
duplicate-free, and the created-path log matches it entry by entry. -/
lemma solveLoopLog_inv [DecidableEq P] (pz : Puzzle P M) :
    ∀ (fuel : Nat) (seen : List P) (todo log : List (List P)),
      seen.Nodup → log.map List.getLast? = seen.map some →
      (solveLoopLog pz fuel seen todo log).2.1.Nodup ∧
      (solveLoopLog pz fuel seen todo log).2.2.map List.getLast?
        = (solveLoopLog pz fuel seen todo log).2.1.map some := by
  intro fuel
  induction fuel with
  | zero =>
    intro seen todo log hnd hmap
    exact ⟨hnd, hmap⟩
  | succ fuel ih =>
    intro seen todo log hnd hmap
    by_cases hemp : todo.isEmpty
    · have heq : solveLoopLog pz (fuel + 1) seen todo log = (.noSolution, seen, log) := by
        simp only [solveLoopLog, if_pos hemp]
      rw [heq]
      exact ⟨hnd, hmap⟩
    · obtain ⟨hnd', hmap'⟩ := runLevelLog_inv pz todo seen [] log hnd hmap
      rcases hout : runLevelLog pz todo seen [] log with ⟨out, s2, l2⟩
      rw [hout] at hnd' hmap'
      cases out with
      | found p =>
        have heq : solveLoopLog pz (fuel + 1) seen todo log = (.solution p, s2, l2) := by
          simp only [solveLoopLog, if_neg hemp, hout]
        rw [heq]
        exact ⟨hnd', hmap'⟩
      | panic =>
        have heq : solveLoopLog pz (fuel + 1) seen todo log = (.panic, s2, l2) := by
          simp only [solveLoopLog, if_neg hemp, hout]
        rw [heq]
        exact ⟨hnd', hmap'⟩
      | next a b =>
        have ha : a = s2 := by
          have := runLevelLog_next_seen pz todo seen [] log a b
          rw [hout] at this
          exact this rfl
        subst ha
        have heq : solveLoopLog pz (fuel + 1) seen todo log = solveLoopLog pz fuel a b l2 := by
          simp only [solveLoopLog, if_neg hemp, hout]
        rw [heq]
        exact ih a b l2 hnd' hmap'

/-! ### The instrumentation is sound: erasing it yields the plain solver -/

lemma expandMovesLog_erase [DecidableEq P] (pz : Puzzle P M) (cur : P) (path : List P) :
    ∀ (ms : List M) (seen : List P) (todo log : List (List P)),
      (expandMovesLog pz cur path ms seen todo log).1
        = (expandMoves pz cur path ms seen todo).1 ∧
      (expandMovesLog pz cur path ms seen todo log).2.1
        = (expandMoves pz cur path ms seen todo).2 := by
  intro ms
  induction ms with
  | nil => intro seen todo log; exact ⟨rfl, rfl⟩
  | cons m ms ih =>
    intro seen todo log
    by_cases hmem : pz.make_move cur m ∈ seen
    · simp only [expandMovesLog, expandMoves, if_pos hmem]
      exact ih seen todo log
    · simp only [expandMovesLog, expandMoves, if_neg hmem]
      exact ih _ _ _

lemma runLevelLog_erase [DecidableEq P] (pz : Puzzle P M) :
    ∀ (rest : List (List P)) (seen : List P) (todo log : List (List P)),
      (runLevelLog pz rest seen todo log).1 = runLevel pz rest seen todo := by
  intro rest
  induction rest with
  | nil => intro seen todo log; rfl
  | cons path rest' ih =>
    intro seen todo log
    cases hlast : path.getLast? with
    | none => simp only [runLevelLog, runLevel, hlast]
    | some cur =>
      by_cases hfin : pz.is_final cur
      · simp only [runLevelLog, runLevel, hlast, if_pos hfin]
      · simp only [runLevelLog, runLevel, hlast, if_neg hfin]
        obtain ⟨h1, h2⟩ :=
          expandMovesLog_erase pz cur path (pz.get_possible_moves cur) seen todo log
        rw [h1, h2]
        exact ih _ _ _

lemma solveLoopLog_fst [DecidableEq P] (pz : Puzzle P M) :
    ∀ (fuel : Nat) (seen : List P) (todo log : List (List P)),
      (solveLoopLog pz fuel seen todo log).1 = solveLoop pz fuel seen todo := by
  intro fuel
  induction fuel with
  | zero => intro seen todo log; rfl
  | succ fuel ih =>
    intro seen todo log
    by_cases hemp : todo.isEmpty
    · simp only [solveLoopLog, solveLoop, if_pos hemp]
    · rcases hout : runLevelLog pz todo seen [] log with ⟨out, s2, l2⟩
      have hout1 : runLevel pz todo seen [] = out := by
        have h := runLevelLog_erase pz todo seen [] log
        rw [hout] at h
        exact h.symm
      cases out with
      | found p => simp only [solveLoopLog, solveLoop, if_neg hemp, hout, hout1]
      | panic => simp only [solveLoopLog, solveLoop, if_neg hemp, hout, hout1]
      | next a b =>
        have heq1 : solveLoopLog pz (fuel + 1) seen todo log
            = solveLoopLog pz fuel a b l2 := by
          simp only [solveLoopLog, if_neg hemp, hout]
        have heq2 : solveLoop pz (fuel + 1) seen todo = solveLoop pz fuel a b := by
          simp only [solveLoop, if_neg hemp, hout1]
        rw [heq1, heq2]
        exact ih _ _ _

/-! ### Claims about the generic solver -/

/-- Claim C1: whenever `solve` returns a solution path, the path is
non-empty, starts at the initial state, ends in a state satisfying
`is_final`, and every consecutive pair of states is connected by a move
from `get_possible_moves` applied via `make_move`. -/
theorem claim_C1_solution_path_sound [DecidableEq P] (pz : Puzzle P M) (init : P)
    (fuel : Nat) (path : List P)
    (h : solve pz init fuel = .solution path) :
    path ≠ [] ∧ path.head? = some init ∧
    (∃ e, path.getLast? = some e ∧ pz.is_final e = true) ∧
    List.Chain' (stepRel pz) path := by
  have hspec := solve_spec pz init fuel
  rw [h] at hspec
  simp only [SolveSpec] at hspec
  obtain ⟨⟨h1, h2, h3⟩, k, _, ⟨e, he1, he2, _⟩, _⟩ := hspec
  exact ⟨h1, h2, ⟨e, he1, he2⟩, h3⟩

/-- Witness for claim C1, at the `i32` test puzzle. -/
theorem claim_C1_witness :
    solve i32Puzzle 1 7 = .solution [1, 0, 2, 4, 6, 8, 10] ∧
    (([1, 0, 2, 4, 6, 8, 10] : List Int) ≠ [] ∧
     ([1, 0, 2, 4, 6, 8, 10] : List Int).head? = some 1 ∧
     (∃ e, ([1, 0, 2, 4, 6, 8, 10] : List Int).getLast? = some e ∧
        i32Puzzle.is_final e = true) ∧
     List.Chain' (stepRel i32Puzzle) [1, 0, 2, 4, 6, 8, 10]) :=
  ⟨by decide, claim_C1_solution_path_sound i32Puzzle 1 7 [1, 0, 2, 4, 6, 8, 10] (by decide)⟩

/-- Claim C2: a returned solution path has length one plus the minimum
breadth-first depth of any reachable goal state: its length is `k + 1`
where some goal state is reachable in exactly `k` moves and no state
reachable in fewer than `k` moves is a goal. -/
theorem claim_C2_shortest_path [DecidableEq P] (pz : Puzzle P M) (init : P)
    (fuel : Nat) (path : List P)
    (h : solve pz init fuel = .solution path) :
    ∃ k, path.length = k + 1 ∧
      (∃ e, reachN pz init k e ∧ pz.is_final e = true) ∧
      (∀ j s, j < k → reachN pz init j s → pz.is_final s = false) := by
  have hspec := solve_spec pz init fuel
  rw [h] at hspec
  simp only [SolveSpec] at hspec
  obtain ⟨_, k, hlen, ⟨e, _, he2, he3⟩, hsh⟩ := hspec
  exact ⟨k, hlen, ⟨e, he3, he2⟩, hsh⟩

/-- Witness for claim C2, at the `i32` test puzzle. -/
theorem claim_C2_witness :
    solve i32Puzzle 1 7 = .solution [1, 0, 2, 4, 6, 8, 10] ∧
    ∃ k, ([1, 0, 2, 4, 6, 8, 10] : List Int).length = k + 1 ∧
      (∃ e, reachN i32Puzzle 1 k e ∧ i32Puzzle.is_final e = true) ∧
      (∀ j s, j < k → reachN i32Puzzle 1 j s → i32Puzzle.is_final s = false) :=
  ⟨by decide, claim_C2_shortest_path i32Puzzle 1 7 [1, 0, 2, 4, 6, 8, 10] (by decide)⟩

/-- Claim C3: for a finite reachable state space (over-approximated by the
finite set `A`) and sufficient fuel, `solve` returns `noSolution` exactly
when no reachable state is final, and it never returns the panic marker. -/
theorem claim_C3_no_solution_iff [DecidableEq P] (pz : Puzzle P M) (init : P)
    (A : Finset P) (hA : ∀ s, reachable pz init s → s ∈ A)
    (fuel : Nat) (hfuel : A.card + 2 ≤ fuel) :
    (solve pz init fuel = .noSolution ↔
      ¬ ∃ s, reachable pz init s ∧ pz.is_final s = true) ∧
    solve pz init fuel ≠ .panic := by
  have hspec := solve_spec pz init fuel
  have hterm : solve pz init fuel ≠ .outOfFuel :=
    solveLoop_no_fuel_out pz init A hA fuel 0 [] [[init]] (LoopInv_init pz init)
      (by simpa using hfuel)
  constructor
  · constructor
    · intro h
      rw [h] at hspec
      exact hspec
    · intro h
      cases hres : solve pz init fuel with
      | outOfFuel => exact absurd hres hterm
      | panic =>
        rw [hres] at hspec
        exact hspec.elim
      | noSolution => rfl
      | solution p =>
        rw [hres] at hspec
        simp only [SolveSpec] at hspec
        obtain ⟨_, k, _, ⟨e, _, he2, he3⟩, _⟩ := hspec
        exact absurd ⟨e, ⟨k, he3⟩, he2⟩ h
  · intro hp
    rw [hp] at hspec
    exact hspec

/-- A trivial one-state puzzle (no moves, no goal), used as a concrete
finite-state witness input. -/
def noMovesPuzzle : Puzzle Bool Unit where
  make_move s _ := s
  get_possible_moves _ := []
  is_final _ := false

/-- Witness for claim C3, at a trivial finite puzzle. -/
theorem claim_C3_witness :
    (∀ s, reachable noMovesPuzzle false s → s ∈ (Finset.univ : Finset Bool)) ∧
    (Finset.univ : Finset Bool).card + 2 ≤ 4 ∧
    ((solve noMovesPuzzle false 4 = .noSolution ↔
       ¬ ∃ s, reachable noMovesPuzzle false s ∧ noMovesPuzzle.is_final s = true) ∧
     solve noMovesPuzzle false 4 ≠ .panic) :=
  ⟨fun s _ => Finset.mem_univ s, by decide,
   claim_C3_no_solution_iff noMovesPuzzle false Finset.univ
     (fun s _ => Finset.mem_univ s) 4 (by decide)⟩

/-- Claim C4: if the reachable state space fits inside a finite set `A`,
`solve` with fuel at least `A.card + 2` terminates with a definite answer —
it never exhausts its fuel (the embedding of a diverging loop). -/
theorem claim_C4_terminates [DecidableEq P] (pz : Puzzle P M) (init : P)
    (A : Finset P) (hA : ∀ s, reachable pz init s → s ∈ A)
    (fuel : Nat) (hfuel : A.card + 2 ≤ fuel) :
    solve pz init fuel ≠ .outOfFuel :=
  solveLoop_no_fuel_out pz init A hA fuel 0 [] [[init]] (LoopInv_init pz init)
    (by simpa using hfuel)

/-- Witness for claim C4, at a trivial finite puzzle. -/
theorem claim_C4_witness :
    (∀ s, reachable noMovesPuzzle true s → s ∈ (Finset.univ : Finset Bool)) ∧
    (Finset.univ : Finset Bool).card + 2 ≤ 5 ∧
    solve noMovesPuzzle true 5 ≠ .outOfFuel :=
  ⟨fun s _ => Finset.mem_univ s, by decide,
   claim_C4_terminates noMovesPuzzle true Finset.univ
     (fun s _ => Finset.mem_univ s) 5 (by decide)⟩

/-- Claim C5: over one whole `solve` call (run instrumented), the visited
list never receives the same state twice, and the log of paths created
during the call corresponds one-to-one and in order with the visited list —
each created path's last state is exactly the state inserted into the
visited set at that path's creation.  In particular no two paths created
during the same call end in equal states, and each such state is inserted
exactly once, at the moment it is first produced as a successor. -/
theorem claim_C5_no_revisit [DecidableEq P] (pz : Puzzle P M) (init : P)
    (fuel : Nat) (res : SolveResult P) (seenF : List P) (logF : List (List P))
    (h : solveLoopLog pz fuel [] [[init]] [] = (res, seenF, logF)) :
    seenF.Nodup ∧ logF.map List.getLast? = seenF.map some := by
  have hinv := solveLoopLog_inv pz fuel [] [[init]] [] List.nodup_nil (by simp)
  rw [h] at hinv
  exact hinv

/-- Witness for claim C5: one level of the `i32` puzzle. -/
theorem claim_C5_witness :
    solveLoopLog i32Puzzle 1 [] [[(1 : Int)]] []
      = (.outOfFuel, [0, 3], [[1, 0], [1, 3]]) ∧
    (([0, 3] : List Int).Nodup ∧
     ([[1, 0], [1, 3]] : List (List Int)).map List.getLast?
       = ([0, 3] : List Int).map some) :=
  ⟨by decide, claim_C5_no_revisit i32Puzzle 1 1 .outOfFuel [0, 3] [[1, 0], [1, 3]]
    (by decide)⟩

/-- Claim C6: on the `i32` toy puzzle (initial state 1, moves −1 and +2,
goal 10), the solver returns exactly the path `[1, 0, 2, 4, 6, 8, 10]`
(for any fuel large enough for the loop to complete). -/
theorem claim_C6_i32_game (fuel : Nat) (h : 7 ≤ fuel) :
    solve i32Puzzle 1 fuel = .solution [1, 0, 2, 4, 6, 8, 10] := by
  have hbase : solveLoop i32Puzzle 7 [] [[1]] = .solution [1, 0, 2, 4, 6, 8, 10] := by
    decide
  have hne : solveLoop i32Puzzle 7 [] [[1]] ≠ .outOfFuel := by decide
  show solveLoop i32Puzzle fuel [] [[1]] = _
  rw [solveLoop_mono i32Puzzle 7 fuel [] [[1]] h hne]
  exact hbase

/-- Witness for claim C6, at fuel 7. -/
theorem claim_C6_witness :
    7 ≤ 7 ∧ solve i32Puzzle 1 7 = .solution [1, 0, 2, 4, 6, 8, 10] :=
  ⟨le_rfl, claim_C6_i32_game 7 le_rfl⟩

/-- Claim C7: the solver is deterministic — two completed runs from the
same initial state (any fuels large enough for the loop to finish) return
the same result. -/
theorem claim_C7_deterministic [DecidableEq P] (pz : Puzzle P M) (init : P)
    (fuel₁ fuel₂ : Nat)
    (h₁ : solve pz init fuel₁ ≠ .outOfFuel) (h₂ : solve pz init fuel₂ ≠ .outOfFuel) :
    solve pz init fuel₁ = solve pz init fuel₂ := by
  rcases le_total fuel₁ fuel₂ with h | h
  · exact (solveLoop_mono pz fuel₁ fuel₂ [] [[init]] h h₁).symm
  · exact solveLoop_mono pz fuel₂ fuel₁ [] [[init]] h h₂

/-- Witness for claim C7, at the `i32` test puzzle with fuels 7 and 9. -/
theorem claim_C7_witness :
    solve i32Puzzle 1 7 ≠ .outOfFuel ∧ solve i32Puzzle 1 9 ≠ .outOfFuel ∧
    solve i32Puzzle 1 7 = solve i32Puzzle 1 9 :=
  ⟨by decide, by decide, claim_C7_deterministic i32Puzzle 1 7 9 (by decide) (by decide)⟩

/-! ### The Klotski instantiation (`src/klotski.rs`) -/

abbrev WIDTH : Nat := 4
abbrev HEIGHT : Nat := 5
abbrev N_PIECES : Nat := 10
abbrev N_DIRECTIONS : Nat := 4

/-- The pieces of the board; `X0` is the empty-cell marker.  The `repr i8`
values of the source are given by `Piece.toI8`. -/
inductive Piece where
  | C0 | C1 | C2 | C3 | H0 | S0 | V0 | V1 | V2 | V3 | X0
  deriving DecidableEq, Fintype

def Piece.toI8 : Piece → Int
  | .C0 => 0
  | .C1 => 1
  | .C2 => 2
  | .C3 => 3
  | .H0 => 4
  | .S0 => 5
  | .V0 => 6
  | .V1 => 7
  | .V2 => 8
  | .V3 => 9
  | .X0 => -1

inductive Direction where
  | North | South | West | East
  deriving DecidableEq, Fintype

/-- The `repr i8` values of `Direction` in the source. -/
def Direction.toI8 : Direction → Int
  | .North => 0 * (N_PIECES : Int)
  | .South => 1 * (N_PIECES : Int)
  | .West => 2 * (N_PIECES : Int)
  | .East => 3 * (N_PIECES : Int)

def PIECES : List Piece :=
  [.C0, .C1, .C2, .C3, .H0, .S0, .V0, .V1, .V2, .V3]

def DIRECTIONS : List Direction :=
  [.North, .South, .West, .East]

/-- `Direction::from` of the source (renamed: `from` is reserved in Lean):
the cell one step in the direction from `(x, y)`, or `none` when that
would leave the board. -/
def Direction.fromXY : Direction → Fin WIDTH → Fin HEIGHT → Option (Fin WIDTH × Fin HEIGHT)
  | .North, x, y =>
    if h : (y : Nat) > 0 then some (x, ⟨(y : Nat) - 1, by have := y.isLt; omega⟩) else none
  | .South, x, y =>
    if h : (y : Nat) < HEIGHT - 1 then some (x, ⟨(y : Nat) + 1, by omega⟩) else none
  | .West, x, y =>
    if h : (x : Nat) > 0 then some (⟨(x : Nat) - 1, by have := x.isLt; omega⟩, y) else none
  | .East, x, y =>
    if h : (x : Nat) < WIDTH - 1 then some (⟨(x : Nat) + 1, by omega⟩, y) else none

/-- A Klotski move: a piece and a direction. -/
structure Move where
  piece : Piece
  direction : Direction
  deriving DecidableEq, Fintype

/-- `Move::to_u64`: the `i8` sum `piece + direction`, cast to `u64`
(a negative sum wraps modulo `2^64`). -/
def Move.to_u64 (m : Move) : Nat :=
  ((m.piece.toI8 + m.direction.toI8) % (2 ^ 64 : Int)).toNat

/-- `Move::from_u64`; out-of-range indexing of `DIRECTIONS` (a panic in
the source) is `none`. -/
def Move.from_u64 (n : Nat) : Option Move :=
  match PIECES[n % N_PIECES]?, DIRECTIONS[n / N_PIECES]? with
  | some p, some d => some ⟨p, d⟩
  | _, _ => none

/-- A `MoveSet` is a `u64` bitset of moves, where a 0 bit means allowed
and a 1 bit means disallowed. -/
abbrev MoveSet := Nat

def MoveSet.new : MoveSet := 0

/-- `MoveSet::remove`: set the move's bit.  (The shift amount is masked to
the word width, as Rust does; every shift actually used is `< 40`.) -/
def MoveSet.remove (s : MoveSet) (m : Move) : MoveSet :=
  s ||| (1 <<< (Move.to_u64 m % 64))

/-- `MoveSet::is_allowed`: the move's bit is 0. -/
def MoveSet.is_allowed (s : MoveSet) (m : Move) : Bool :=
  s &&& (1 <<< (Move.to_u64 m % 64)) == 0

/-- Iteration over a `MoveSet` (`MoveSetIter` / `IntoIterator`): the moves
of index `0..40`, in index order, whose bit is 0. -/
def MoveSet.toList (s : MoveSet) : List Move :=
  (List.range (N_PIECES * N_DIRECTIONS)).filterMap fun n =>
    match Move.from_u64 n with
    | some m => if MoveSet.is_allowed s m then some m else none
    | none => none

/-- The Klotski board: `HEIGHT` rows of `WIDTH` cells.  (The source's
`[[Piece; WIDTH]; HEIGHT]` array, as a function of row and column.) -/
abbrev Klotski := Fin HEIGHT → Fin WIDTH → Piece

/-- The row-major traversal order of the source's nested
`for (y, row)` / `for (x, piece)` loops. -/
def boardCells : List (Fin HEIGHT × Fin WIDTH) :=
  (List.finRange HEIGHT).flatMap fun y => (List.finRange WIDTH).map fun x => (y, x)

/-- Writing one cell of the board. -/
def Klotski.setCell (b : Klotski) (y : Fin HEIGHT) (x : Fin WIDTH) (v : Piece) : Klotski :=
  fun y' x' => if y' = y ∧ x' = x then v else b y' x'

/-- `Klotski::get_possible_moves`: starting from the all-allowed bitset,
remove every `(piece, direction)` for which some cell of `piece` either
would leave the board or targets a cell that is neither empty nor a cell
of the same piece. -/
def Klotski.get_possible_moves (b : Klotski) : MoveSet :=
  boardCells.foldl
    (fun result c =>
      let piece := b c.1 c.2
      if piece = Piece.X0 then result
      else
        DIRECTIONS.foldl
          (fun result direction =>
            match Direction.fromXY direction c.2 c.1 with
            | some (nx, ny) =>
              let target := b ny nx
              if ¬ (target = Piece.X0 ∨ target = piece) then
                MoveSet.remove result ⟨piece, direction⟩
              else result
            | none => MoveSet.remove result ⟨piece, direction⟩)
          result)
    MoveSet.new

/-- The loop body of `Klotski::make_move` for one source cell `c`: an
empty cell writes nothing; a cell of the moved piece is written at its
shifted position (`none` models the `expect("apply_move")` panic when the
shift leaves the board); any other occupied cell is copied. -/
def Klotski.moveStep (b : Klotski) (mv : Move) (acc : Klotski)
    (c : Fin HEIGHT × Fin WIDTH) : Option Klotski :=
  let piece := b c.1 c.2
  if piece = Piece.X0 then some acc
  else if piece = mv.piece then
    match Direction.fromXY mv.direction c.2 c.1 with
    | some (nx, ny) => some (Klotski.setCell acc ny nx piece)
    | none => none
  else some (Klotski.setCell acc c.1 c.2 piece)

/-- `Klotski::make_move`: run the loop body over all cells of the source
board, starting from a fresh all-empty board. -/
def Klotski.make_move (b : Klotski) (mv : Move) : Option Klotski :=
  boardCells.foldlM (Klotski.moveStep b mv) (fun _ _ => Piece.X0)

/-- `Klotski::is_final`: the 2×2 block `S0` occupies rows 3–4, columns 1–2. -/
def Klotski.is_final (b : Klotski) : Bool :=
  b 3 1 == Piece.S0 && b 3 2 == Piece.S0 && b 4 1 == Piece.S0 && b 4 2 == Piece.S0

/-- The `INITIAL_BOARD` constant of the source. -/
def INITIAL_BOARD : Klotski := fun y x =>
  ![![Piece.V0, Piece.S0, Piece.S0, Piece.V1],
    ![Piece.V0, Piece.S0, Piece.S0, Piece.V1],
    ![Piece.V2, Piece.H0, Piece.H0, Piece.V3],
    ![Piece.V2, Piece.C0, Piece.C1, Piece.V3],
    ![Piece.C2, Piece.X0, Piece.X0, Piece.C3]] y x

/-- `Klotski::initial`. -/
def Klotski.initial : Klotski := INITIAL_BOARD

/-- The number of board cells holding a given label. -/
def cellCount (b : Klotski) (p : Piece) : Nat :=
  (Finset.univ.filter fun c : Fin HEIGHT × Fin WIDTH => b c.1 c.2 = p).card

set_option maxRecDepth 10000 in
example : MoveSet.toList (Klotski.get_possible_moves INITIAL_BOARD)
    = [⟨.C0, .South⟩, ⟨.C1, .South⟩, ⟨.C3, .West⟩, ⟨.C2, .East⟩] := by decide

example : cellCount INITIAL_BOARD Piece.X0 = 2 := by decide

example : Klotski.is_final INITIAL_BOARD = false := by decide

/-! ### Facts about the packed move encoding, by finite checking -/

lemma mem_boardCells : ∀ c : Fin HEIGHT × Fin WIDTH, c ∈ boardCells := by decide

lemma mem_DIRECTIONS : ∀ d : Direction, d ∈ DIRECTIONS := by decide

lemma to_u64_lt : ∀ (p : Piece) (d : Direction), p ≠ Piece.X0 →
    Move.to_u64 ⟨p, d⟩ < 40 := by decide

lemma from_u64_to_u64 : ∀ (p : Piece) (d : Direction), p ≠ Piece.X0 →
    Move.from_u64 (Move.to_u64 ⟨p, d⟩) = some ⟨p, d⟩ := by decide

set_option maxRecDepth 4000 in
lemma to_u64_mod_inj : ∀ (p₁ p₂ : Piece) (d₁ d₂ : Direction),
    p₁ ≠ Piece.X0 → p₂ ≠ Piece.X0 →
    (Move.to_u64 ⟨p₁, d₁⟩ % 64 = Move.to_u64 ⟨p₂, d₂⟩ % 64 ↔ p₁ = p₂ ∧ d₁ = d₂) := by
  decide

set_option maxRecDepth 4000 in
lemma from_u64_facts : ∀ n : Fin 40, ∃ p d, Move.from_u64 (n : Nat) = some ⟨p, d⟩ ∧
    p ≠ Piece.X0 ∧ Move.to_u64 ⟨p, d⟩ = (n : Nat) := by decide

set_option maxRecDepth 4000 in
lemma fromXY_inj : ∀ (d : Direction) (x₁ x₂ : Fin WIDTH) (y₁ y₂ : Fin HEIGHT)
    (t : Fin WIDTH × Fin HEIGHT),
    Direction.fromXY d x₁ y₁ = some t → Direction.fromXY d x₂ y₂ = some t →
    x₁ = x₂ ∧ y₁ = y₂ := by decide

/-! ### Bitset semantics -/

lemma is_allowed_new (m : Move) : MoveSet.is_allowed MoveSet.new m = true := by
  simp [MoveSet.is_allowed, MoveSet.new, Nat.zero_and]

lemma is_allowed_iff_testBit (s : MoveSet) (m : Move) :
    MoveSet.is_allowed s m = false ↔ s.testBit (Move.to_u64 m % 64) = true := by
  unfold MoveSet.is_allowed
  rw [Nat.shiftLeft_eq, one_mul, Nat.and_two_pow]
  cases h : s.testBit (Move.to_u64 m % 64) <;>
    simp [h, Nat.pos_iff_ne_zero, Nat.pow_eq_zero]

lemma is_allowed_remove (s : MoveSet) (m m' : Move) :
    MoveSet.is_allowed (MoveSet.remove s m) m' = false ↔
      (MoveSet.is_allowed s m' = false ∨ Move.to_u64 m % 64 = Move.to_u64 m' % 64) := by
  rw [is_allowed_iff_testBit, is_allowed_iff_testBit]
  unfold MoveSet.remove
  rw [Nat.testBit_or, Nat.shiftLeft_eq, one_mul, Nat.testBit_two_pow]
  cases h : s.testBit (Move.to_u64 m' % 64) <;> simp [h]

/-- Generic removal accounting over a fold: the final bit of `mv'` is set
exactly when it was already set or some step of the fold removes a move
with `mv'`'s bit. -/
lemma foldl_is_allowed_false {α : Type} (mv' : Move) (step : MoveSet → α → MoveSet)
    (Rem : α → Prop)
    (hstep : ∀ (s : MoveSet) (a : α), MoveSet.is_allowed (step s a) mv' = false ↔
      (MoveSet.is_allowed s mv' = false ∨ Rem a)) :
    ∀ (l : List α) (s : MoveSet),
      MoveSet.is_allowed (l.foldl step s) mv' = false ↔
      (MoveSet.is_allowed s mv' = false ∨ ∃ a ∈ l, Rem a) := by
  intro l
  induction l with
  | nil => intro s; simp
  | cons a l ih =>
    intro s
    rw [List.foldl_cons, ih, hstep, List.exists_mem_cons_iff]
    tauto

/-- The removal condition of the source's inner loop, for one cell and one
direction: the step leaves the board, or the target cell is neither empty
nor a cell of the same piece. -/
def removalFires (b : Klotski) (c : Fin HEIGHT × Fin WIDTH) (dir : Direction) : Prop :=
  Direction.fromXY dir c.2 c.1 = none ∨
    ∃ nx ny, Direction.fromXY dir c.2 c.1 = some (nx, ny) ∧
      ¬ (b ny nx = Piece.X0 ∨ b ny nx = b c.1 c.2)

/-- Bit-level accounting for the inner direction loop of
`get_possible_moves`. -/
lemma inner_fold_not_allowed (b : Klotski) (p : Piece) (d : Direction)
    (c : Fin HEIGHT × Fin WIDTH) (s : MoveSet) :
    MoveSet.is_allowed
      (DIRECTIONS.foldl (fun result direction =>
        match Direction.fromXY direction c.2 c.1 with
        | some (nx, ny) =>
          if ¬ (b ny nx = Piece.X0 ∨ b ny nx = b c.1 c.2) then
            MoveSet.remove result ⟨b c.1 c.2, direction⟩
          else result
        | none => MoveSet.remove result ⟨b c.1 c.2, direction⟩) s) ⟨p, d⟩ = false ↔
    (MoveSet.is_allowed s ⟨p, d⟩ = false ∨
      ∃ dir ∈ DIRECTIONS, removalFires b c dir ∧
        Move.to_u64 ⟨b c.1 c.2, dir⟩ % 64 = Move.to_u64 ⟨p, d⟩ % 64) := by
  refine foldl_is_allowed_false ⟨p, d⟩ _
    (fun dir => removalFires b c dir ∧
      Move.to_u64 ⟨b c.1 c.2, dir⟩ % 64 = Move.to_u64 ⟨p, d⟩ % 64) ?_ DIRECTIONS s
  intro s' dir
  cases hxy : Direction.fromXY dir c.2 c.1 with
  | none =>
    simp only [hxy]
    rw [is_allowed_remove]
    constructor
    · rintro (h | h)
      · exact Or.inl h
      · exact Or.inr ⟨Or.inl hxy, h⟩
    · rintro (h | ⟨_, h⟩)
      · exact Or.inl h
      · exact Or.inr h
  | some t =>
    obtain ⟨nx, ny⟩ := t
    simp only [hxy]
    by_cases htar : ¬ (b ny nx = Piece.X0 ∨ b ny nx = b c.1 c.2)
    · rw [if_pos htar, is_allowed_remove]
      constructor
      · rintro (h | h)
        · exact Or.inl h
        · exact Or.inr ⟨Or.inr ⟨nx, ny, hxy, htar⟩, h⟩
      · rintro (h | ⟨_, h⟩)
        · exact Or.inl h
        · exact Or.inr h
    · rw [if_neg htar]
      constructor
      · exact Or.inl
      · rintro (h | ⟨hfire, _⟩)
        · exact h
        · rcases hfire with hnone | ⟨nx', ny', hsome, htar'⟩
          · rw [hxy] at hnone
            cases hnone
          · rw [hxy] at hsome
            simp only [Option.some.injEq, Prod.mk.injEq] at hsome
            obtain ⟨rfl, rfl⟩ := hsome
            exact absurd htar' htar

/-- Bit-level characterisation of `get_possible_moves`: the bit of a
non-empty piece's move is set (the move is disallowed) exactly when some
cell of that piece would leave the board or would land on a cell occupied
by a different piece. -/
lemma get_possible_moves_not_allowed (b : Klotski) (p : Piece) (d : Direction)
    (hp : p ≠ Piece.X0) :
    (MoveSet.is_allowed (Klotski.get_possible_moves b) ⟨p, d⟩ = false ↔
      ∃ c : Fin HEIGHT × Fin WIDTH, b c.1 c.2 = p ∧
        (Direction.fromXY d c.2 c.1 = none ∨
          ∃ nx ny, Direction.fromXY d c.2 c.1 = some (nx, ny) ∧
            b ny nx ≠ Piece.X0 ∧ b ny nx ≠ p)) := by
  have houter : MoveSet.is_allowed (Klotski.get_possible_moves b) ⟨p, d⟩ = false ↔
      (MoveSet.is_allowed MoveSet.new ⟨p, d⟩ = false ∨
        ∃ c ∈ boardCells, b c.1 c.2 ≠ Piece.X0 ∧
          ∃ dir ∈ DIRECTIONS, removalFires b c dir ∧
            Move.to_u64 ⟨b c.1 c.2, dir⟩ % 64 = Move.to_u64 ⟨p, d⟩ % 64) := by
    refine foldl_is_allowed_false ⟨p, d⟩ _
      (fun c => b c.1 c.2 ≠ Piece.X0 ∧
        ∃ dir ∈ DIRECTIONS, removalFires b c dir ∧
          Move.to_u64 ⟨b c.1 c.2, dir⟩ % 64 = Move.to_u64 ⟨p, d⟩ % 64)
      ?_ boardCells MoveSet.new
    intro s c
    by_cases hx0 : b c.1 c.2 = Piece.X0
    · simp only [hx0, if_pos]
      constructor
      · exact Or.inl
      · rintro (h | ⟨hne, _⟩)
        · exact h
        · exact absurd rfl hne
    · simp only [if_neg hx0]
      rw [inner_fold_not_allowed b p d c s]
      constructor
      · rintro (h | h)
        · exact Or.inl h
        · exact Or.inr ⟨hx0, h⟩
      · rintro (h | ⟨_, h⟩)
        · exact Or.inl h
        · exact Or.inr h
  rw [houter]
  have hnew : ¬ MoveSet.is_allowed MoveSet.new ⟨p, d⟩ = false := by
    simp [is_allowed_new]
  constructor
  · rintro (h | ⟨c, _, hne, dir, _, hfire, hbits⟩)
    · exact absurd h hnew
    · obtain ⟨hbp, hdir⟩ := (to_u64_mod_inj (b c.1 c.2) p dir d hne hp).mp hbits
      subst hdir
      refine ⟨c, hbp, ?_⟩
      rcases hfire with hnone | ⟨nx, ny, hsome, htar⟩
      · exact Or.inl hnone
      · rw [hbp] at htar
        push_neg at htar
        exact Or.inr ⟨nx, ny, hsome, htar.1, htar.2⟩
  · rintro ⟨c, hbp, hfire⟩
    refine Or.inr ⟨c, mem_boardCells c, by rw [hbp]; exact hp, d, mem_DIRECTIONS d, ?_, ?_⟩
    · rcases hfire with hnone | ⟨nx, ny, hsome, h1, h2⟩
      · exact Or.inl hnone
      · refine Or.inr ⟨nx, ny, hsome, ?_⟩
        rw [hbp]
        push_neg
        exact ⟨h1, h2⟩
    · exact (to_u64_mod_inj (b c.1 c.2) p d d (by rw [hbp]; exact hp) hp).mpr ⟨hbp, rfl⟩

/-- Membership in the iterated move set: exactly the allowed moves of
non-empty pieces. -/
lemma mem_toList_iff (s : MoveSet) (mv : Move) :
    mv ∈ MoveSet.toList s ↔ (mv.piece ≠ Piece.X0 ∧ MoveSet.is_allowed s mv = true) := by
  unfold MoveSet.toList
  rw [List.mem_filterMap]
  constructor
  · rintro ⟨n, hn, hf⟩
    rw [List.mem_range] at hn
    obtain ⟨p, dd, hsome, hp, hto⟩ := from_u64_facts ⟨n, hn⟩
    have hsome' : Move.from_u64 n = some ⟨p, dd⟩ := hsome
    simp only [hsome'] at hf
    by_cases hall : MoveSet.is_allowed s ⟨p, dd⟩ = true
    · rw [if_pos hall] at hf
      cases hf
      exact ⟨hp, hall⟩
    · rw [if_neg hall] at hf
      cases hf
  · intro h
    obtain ⟨p, d⟩ := mv
    obtain ⟨hp, hall⟩ := h
    refine ⟨Move.to_u64 ⟨p, d⟩, ?_, ?_⟩
    · rw [List.mem_range]
      exact to_u64_lt p d hp
    · simp only [from_u64_to_u64 p d hp]
      rw [if_pos hall]

/-! ### Pointwise characterisation of `make_move` -/

/-- Some cell of the moved piece lands on `(y, x)`. -/
def movesTo (b : Klotski) (mv : Move) (y : Fin HEIGHT) (x : Fin WIDTH) : Prop :=
  ∃ c : Fin HEIGHT × Fin WIDTH, b c.1 c.2 = mv.piece ∧
    Direction.fromXY mv.direction c.2 c.1 = some (x, y)

instance (b : Klotski) (mv : Move) (y : Fin HEIGHT) (x : Fin WIDTH) :
    Decidable (movesTo b mv y x) := by
  unfold movesTo
  infer_instance

lemma pair_eq_components {y : Fin HEIGHT} {x : Fin WIDTH} {c : Fin HEIGHT × Fin WIDTH}
    (h : (y, x) = c) : y = c.1 ∧ x = c.2 := by
  cases h
  exact ⟨rfl, rfl⟩

/-- The board `make_move` produces, described pointwise: a cell the moved
piece lands on holds the piece; any other cell keeps its content unless it
held the moved piece or was empty, in which case it is empty. -/
def moveSpec (b : Klotski) (mv : Move) : Klotski := fun y x =>
  if movesTo b mv y x then mv.piece
  else if b y x ≠ Piece.X0 ∧ b y x ≠ mv.piece then b y x
  else Piece.X0

/-- The board after processing only the cells of `L`, starting from
`acc`. -/
def movePartial (b : Klotski) (mv : Move) (L : List (Fin HEIGHT × Fin WIDTH))
    (acc : Klotski) : Klotski := fun y x =>
  if ∃ c ∈ L, b c.1 c.2 = mv.piece ∧
      Direction.fromXY mv.direction c.2 c.1 = some (x, y) then mv.piece
  else if (y, x) ∈ L ∧ b y x ≠ Piece.X0 ∧ b y x ≠ mv.piece then b y x
  else acc y x

/-- Folding `moveStep` over any list of cells computes `movePartial`,
provided the move is allowed (every cell of the moved piece has an
in-bounds target that is empty or a cell of the same piece). -/
lemma moveStep_fold (b : Klotski) (mv : Move) (hp : mv.piece ≠ Piece.X0)
    (HA : ∀ c : Fin HEIGHT × Fin WIDTH, b c.1 c.2 = mv.piece →
      ∃ nx ny, Direction.fromXY mv.direction c.2 c.1 = some (nx, ny) ∧
        (b ny nx = Piece.X0 ∨ b ny nx = mv.piece)) :
    ∀ (L : List (Fin HEIGHT × Fin WIDTH)) (acc : Klotski),
      L.foldlM (Klotski.moveStep b mv) acc = some (movePartial b mv L acc) := by
  intro L
  induction L with
  | nil =>
    intro acc
    rw [List.foldlM_nil]
    show some acc = some (movePartial b mv [] acc)
    congr 1
  | cons c L ih =>
    intro acc
    rw [List.foldlM_cons]
    by_cases hx0 : b c.1 c.2 = Piece.X0
    · -- an empty source cell writes nothing
      have hstep : Klotski.moveStep b mv acc c = some acc := by
        simp [Klotski.moveStep, hx0]
      rw [hstep]
      show (List.foldlM (Klotski.moveStep b mv) acc L) = _
      rw [ih acc]
      congr 1
      funext y x
      by_cases hA : ∃ c' ∈ L, b c'.1 c'.2 = mv.piece ∧
          Direction.fromXY mv.direction c'.2 c'.1 = some (x, y)
      · obtain ⟨c', hc', h⟩ := hA
        rw [movePartial, movePartial, if_pos ⟨c', hc', h⟩,
          if_pos ⟨c', List.mem_cons_of_mem c hc', h⟩]
      · have hA' : ¬ ∃ c' ∈ c :: L, b c'.1 c'.2 = mv.piece ∧
            Direction.fromXY mv.direction c'.2 c'.1 = some (x, y) := by
          rintro ⟨c', hc', h1, h2⟩
          rcases List.mem_cons.mp hc' with rfl | hc'
          · rw [hx0] at h1
            exact hp h1.symm
          · exact hA ⟨c', hc', h1, h2⟩
        rw [movePartial, movePartial, if_neg hA, if_neg hA']
        by_cases hB : (y, x) ∈ L ∧ b y x ≠ Piece.X0 ∧ b y x ≠ mv.piece
        · rw [if_pos hB, if_pos ⟨List.mem_cons_of_mem c hB.1, hB.2⟩]
        · have hB' : ¬ ((y, x) ∈ c :: L ∧ b y x ≠ Piece.X0 ∧ b y x ≠ mv.piece) := by
            rintro ⟨hm, h2, h3⟩
            rcases List.mem_cons.mp hm with heq | hm
            · obtain ⟨hy, hx⟩ := pair_eq_components heq
              rw [hy, hx] at h2
              exact h2 hx0
            · exact hB ⟨hm, h2, h3⟩
          rw [if_neg hB, if_neg hB']
    · by_cases hpc : b c.1 c.2 = mv.piece
      · -- a cell of the moved piece writes at its shifted position
        obtain ⟨nx, ny, hxy, htar⟩ := HA c hpc
        have hstep : Klotski.moveStep b mv acc c
            = some (Klotski.setCell acc ny nx (b c.1 c.2)) := by
          simp only [Klotski.moveStep, hxy]
          rw [if_neg hx0, if_pos hpc]
        rw [hstep]
        show (List.foldlM (Klotski.moveStep b mv) (Klotski.setCell acc ny nx (b c.1 c.2)) L) = _
        rw [ih _]
        congr 1
        funext y x
        by_cases hA : ∃ c' ∈ L, b c'.1 c'.2 = mv.piece ∧
            Direction.fromXY mv.direction c'.2 c'.1 = some (x, y)
        · obtain ⟨c', hc', h⟩ := hA
          rw [movePartial, movePartial, if_pos ⟨c', hc', h⟩,
            if_pos ⟨c', List.mem_cons_of_mem c hc', h⟩]
        · by_cases hcy : x = nx ∧ y = ny
          · obtain ⟨rfl, rfl⟩ := hcy
            have hpos : ∃ c' ∈ c :: L, b c'.1 c'.2 = mv.piece ∧
                Direction.fromXY mv.direction c'.2 c'.1 = some (x, y) :=
              ⟨c, List.mem_cons_self c L, hpc, hxy⟩
            rw [movePartial, movePartial, if_neg hA, if_pos hpos]
            have hBfalse : ¬ ((y, x) ∈ L ∧ b y x ≠ Piece.X0 ∧ b y x ≠ mv.piece) := by
              rintro ⟨_, h2, h3⟩
              rcases htar with h | h
              · exact h2 h
              · exact h3 h
            rw [if_neg hBfalse]
            rw [Klotski.setCell, if_pos ⟨rfl, rfl⟩, hpc]
          · have hA' : ¬ ∃ c' ∈ c :: L, b c'.1 c'.2 = mv.piece ∧
                Direction.fromXY mv.direction c'.2 c'.1 = some (x, y) := by
              rintro ⟨c', hc', h1, h2⟩
              rcases List.mem_cons.mp hc' with rfl | hc'
              · rw [hxy] at h2
                simp only [Option.some.injEq, Prod.mk.injEq] at h2
                exact hcy ⟨h2.1.symm, h2.2.symm⟩
              · exact hA ⟨c', hc', h1, h2⟩
            rw [movePartial, movePartial, if_neg hA, if_neg hA']
            by_cases hB : (y, x) ∈ L ∧ b y x ≠ Piece.X0 ∧ b y x ≠ mv.piece
            · rw [if_pos hB, if_pos ⟨List.mem_cons_of_mem c hB.1, hB.2⟩]
            · have hB' : ¬ ((y, x) ∈ c :: L ∧ b y x ≠ Piece.X0 ∧ b y x ≠ mv.piece) := by
                rintro ⟨hm, h2, h3⟩
                rcases List.mem_cons.mp hm with heq | hm
                · obtain ⟨hy, hx⟩ := pair_eq_components heq
                  rw [hy, hx] at h3
                  exact h3 hpc
                · exact hB ⟨hm, h2, h3⟩
              rw [if_neg hB, if_neg hB']
              rw [Klotski.setCell, if_neg]
              rintro ⟨rfl, rfl⟩
              exact hcy ⟨rfl, rfl⟩
      · -- any other occupied cell is copied in place
        have hstep : Klotski.moveStep b mv acc c
            = some (Klotski.setCell acc c.1 c.2 (b c.1 c.2)) := by
          simp [Klotski.moveStep, hx0, hpc]
        rw [hstep]
        show (List.foldlM (Klotski.moveStep b mv) (Klotski.setCell acc c.1 c.2 (b c.1 c.2)) L) = _
        rw [ih _]
        congr 1
        funext y x
        by_cases hA : ∃ c' ∈ L, b c'.1 c'.2 = mv.piece ∧
            Direction.fromXY mv.direction c'.2 c'.1 = some (x, y)
        · obtain ⟨c', hc', h⟩ := hA
          rw [movePartial, movePartial, if_pos ⟨c', hc', h⟩,
            if_pos ⟨c', List.mem_cons_of_mem c hc', h⟩]
        · have hA' : ¬ ∃ c' ∈ c :: L, b c'.1 c'.2 = mv.piece ∧
              Direction.fromXY mv.direction c'.2 c'.1 = some (x, y) := by
            rintro ⟨c', hc', h1, h2⟩
            rcases List.mem_cons.mp hc' with rfl | hc'
            · exact hpc h1
            · exact hA ⟨c', hc', h1, h2⟩
          rw [movePartial, movePartial, if_neg hA, if_neg hA']
          by_cases hB : (y, x) ∈ L ∧ b y x ≠ Piece.X0 ∧ b y x ≠ mv.piece
          · rw [if_pos hB, if_pos ⟨List.mem_cons_of_mem c hB.1, hB.2⟩]
          · by_cases hyc : (y, x) = c
            · obtain ⟨hy, hx⟩ := pair_eq_components hyc
              have hB' : (y, x) ∈ c :: L ∧ b y x ≠ Piece.X0 ∧ b y x ≠ mv.piece := by
                refine ⟨by rw [hyc]; exact List.mem_cons_self c L, ?_, ?_⟩
                · rw [hy, hx]
                  exact hx0
                · rw [hy, hx]
                  exact hpc
              rw [if_neg hB, if_pos hB']
              rw [Klotski.setCell, if_pos ⟨hy, hx⟩]
              rw [hy, hx]
            · have hB' : ¬ ((y, x) ∈ c :: L ∧ b y x ≠ Piece.X0 ∧ b y x ≠ mv.piece) := by
                rintro ⟨hm, h2, h3⟩
                rcases List.mem_cons.mp hm with heq | hm
                · exact hyc heq
                · exact hB ⟨hm, h2, h3⟩
              rw [if_neg hB, if_neg hB']
              rw [Klotski.setCell, if_neg]
              intro hcontra
              exact hyc (by rw [hcontra.1, hcontra.2])

/-- An allowed move of a non-empty piece: every cell of the piece has an
in-bounds target that is empty or belongs to the piece itself. -/
lemma allowed_targets (b : Klotski) (mv : Move) (hp : mv.piece ≠ Piece.X0)
    (hall : MoveSet.is_allowed (Klotski.get_possible_moves b) mv = true) :
    ∀ c : Fin HEIGHT × Fin WIDTH, b c.1 c.2 = mv.piece →
      ∃ nx ny, Direction.fromXY mv.direction c.2 c.1 = some (nx, ny) ∧
        (b ny nx = Piece.X0 ∨ b ny nx = mv.piece) := by
  intro c hc
  have hnot : ¬ MoveSet.is_allowed (Klotski.get_possible_moves b)
      ⟨mv.piece, mv.direction⟩ = false := by
    intro h
    rw [show (⟨mv.piece, mv.direction⟩ : Move) = mv from rfl, hall] at h
    cases h
  rw [get_possible_moves_not_allowed b mv.piece mv.direction hp] at hnot
  push_neg at hnot
  obtain ⟨hne, hB⟩ := hnot c hc
  cases hopt : Direction.fromXY mv.direction c.2 c.1 with
  | none => exact absurd hopt hne
  | some t =>
    obtain ⟨nx, ny⟩ := t
    refine ⟨nx, ny, rfl, ?_⟩
    by_cases hX : b ny nx = Piece.X0
    · exact Or.inl hX
    · exact Or.inr (hB nx ny hopt hX)

/-- `make_move` of an allowed move succeeds and computes `moveSpec`. -/
lemma make_move_eq_moveSpec (b : Klotski) (mv : Move) (hp : mv.piece ≠ Piece.X0)
    (HA : ∀ c : Fin HEIGHT × Fin WIDTH, b c.1 c.2 = mv.piece →
      ∃ nx ny, Direction.fromXY mv.direction c.2 c.1 = some (nx, ny) ∧
        (b ny nx = Piece.X0 ∨ b ny nx = mv.piece)) :
    Klotski.make_move b mv = some (moveSpec b mv) := by
  unfold Klotski.make_move
  rw [moveStep_fold b mv hp HA boardCells (fun _ _ => Piece.X0)]
  congr 1
  funext y x
  unfold movePartial moveSpec
  by_cases hm : movesTo b mv y x
  · obtain ⟨c', hc', hxy⟩ := hm
    rw [if_pos ⟨c', mem_boardCells c', hc', hxy⟩, if_pos ⟨c', hc', hxy⟩]
  · have hm' : ¬ ∃ c' ∈ boardCells, b c'.1 c'.2 = mv.piece ∧
        Direction.fromXY mv.direction c'.2 c'.1 = some (x, y) := by
      rintro ⟨c', _, h1, h2⟩
      exact hm ⟨c', h1, h2⟩
    rw [if_neg hm', if_neg hm]
    by_cases hB : b y x ≠ Piece.X0 ∧ b y x ≠ mv.piece
    · rw [if_pos ⟨mem_boardCells (y, x), hB⟩, if_pos hB]
    · rw [if_neg (fun h => hB h.2), if_neg hB]

/-- The target cell of a moving cell, as a total function (identity where
the step is out of bounds, a case the allowed precondition excludes). -/
def shiftCell (d : Direction) (c : Fin HEIGHT × Fin WIDTH) : Fin HEIGHT × Fin WIDTH :=
  match Direction.fromXY d c.2 c.1 with
  | some (nx, ny) => (ny, nx)
  | none => c

/-- Cells of the moved piece are counted onto their targets: the moved
piece occupies as many cells after the move as before. -/
lemma cellCount_moveSpec_piece (b : Klotski) (mv : Move) (hp : mv.piece ≠ Piece.X0)
    (HA : ∀ c : Fin HEIGHT × Fin WIDTH, b c.1 c.2 = mv.piece →
      ∃ nx ny, Direction.fromXY mv.direction c.2 c.1 = some (nx, ny) ∧
        (b ny nx = Piece.X0 ∨ b ny nx = mv.piece)) :
    cellCount (moveSpec b mv) mv.piece = cellCount b mv.piece := by
  unfold cellCount
  have hfilter : Finset.univ.filter
        (fun c : Fin HEIGHT × Fin WIDTH => moveSpec b mv c.1 c.2 = mv.piece)
      = Finset.univ.filter (fun c : Fin HEIGHT × Fin WIDTH => movesTo b mv c.1 c.2) := by
    ext q
    simp only [Finset.mem_filter, Finset.mem_univ, true_and]
    constructor
    · intro h
      unfold moveSpec at h
      by_cases hm : movesTo b mv q.1 q.2
      · exact hm
      · rw [if_neg hm] at h
        by_cases h2 : b q.1 q.2 ≠ Piece.X0 ∧ b q.1 q.2 ≠ mv.piece
        · rw [if_pos h2] at h
          exact absurd h h2.2
        · rw [if_neg h2] at h
          exact absurd h.symm hp
    · intro hm
      unfold moveSpec
      rw [if_pos hm]
  rw [hfilter]
  symm
  refine Finset.card_bij (fun c _ => shiftCell mv.direction c) ?_ ?_ ?_
  · intro c hc
    rw [Finset.mem_filter] at hc ⊢
    dsimp only
    obtain ⟨nx, ny, hxy, _⟩ := HA c hc.2
    have hsh : shiftCell mv.direction c = (ny, nx) := by
      simp [shiftCell, hxy]
    rw [hsh]
    exact ⟨Finset.mem_univ _, c, hc.2, hxy⟩
  · intro c₁ h₁ c₂ h₂ heq
    rw [Finset.mem_filter] at h₁ h₂
    dsimp only at heq
    obtain ⟨nx₁, ny₁, hxy₁, _⟩ := HA c₁ h₁.2
    obtain ⟨nx₂, ny₂, hxy₂, _⟩ := HA c₂ h₂.2
    rw [show shiftCell mv.direction c₁ = (ny₁, nx₁) by simp [shiftCell, hxy₁],
      show shiftCell mv.direction c₂ = (ny₂, nx₂) by simp [shiftCell, hxy₂]] at heq
    simp only [Prod.mk.injEq] at heq
    obtain ⟨hy, hx⟩ := heq
    rw [hy, hx] at hxy₁
    obtain ⟨hx', hy'⟩ := fromXY_inj mv.direction c₁.2 c₂.2 c₁.1 c₂.1 (nx₂, ny₂) hxy₁ hxy₂
    exact Prod.ext hy' hx'
  · intro q hq
    rw [Finset.mem_filter] at hq
    obtain ⟨c, hc, hxy⟩ := hq.2
    refine ⟨c, Finset.mem_filter.mpr ⟨Finset.mem_univ _, hc⟩, ?_⟩
    dsimp only
    rw [show shiftCell mv.direction c = (q.1, q.2) by simp [shiftCell, hxy]]

/-- Cells of every other piece stay in place: their count is unchanged. -/
lemma cellCount_moveSpec_other (b : Klotski) (mv : Move)
    (HA : ∀ c : Fin HEIGHT × Fin WIDTH, b c.1 c.2 = mv.piece →
      ∃ nx ny, Direction.fromXY mv.direction c.2 c.1 = some (nx, ny) ∧
        (b ny nx = Piece.X0 ∨ b ny nx = mv.piece))
    (ρ : Piece) (hρ1 : ρ ≠ mv.piece) (hρ2 : ρ ≠ Piece.X0) :
    cellCount (moveSpec b mv) ρ = cellCount b ρ := by
  unfold cellCount
  congr 1
  ext q
  simp only [Finset.mem_filter, Finset.mem_univ, true_and]
  constructor
  · intro h
    unfold moveSpec at h
    by_cases hm : movesTo b mv q.1 q.2
    · rw [if_pos hm] at h
      exact absurd h.symm hρ1
    · rw [if_neg hm] at h
      by_cases h2 : b q.1 q.2 ≠ Piece.X0 ∧ b q.1 q.2 ≠ mv.piece
      · rwa [if_pos h2] at h
      · rw [if_neg h2] at h
        exact absurd h.symm hρ2
  · intro h
    have hm : ¬ movesTo b mv q.1 q.2 := by
      rintro ⟨c, hc, hxy⟩
      obtain ⟨nx, ny, hxy', htar⟩ := HA c hc
      rw [hxy'] at hxy
      simp only [Option.some.injEq, Prod.mk.injEq] at hxy
      obtain ⟨h1, h2⟩ := hxy
      rw [h2, h1] at htar
      rcases htar with ht | ht
      · rw [h] at ht
        exact hρ2 ht
      · rw [h] at ht
        exact hρ1 ht
    unfold moveSpec
    rw [if_neg hm, if_pos ⟨by rw [h]; exact hρ2, by rw [h]; exact hρ1⟩]
    exact h

/-- Each board has 20 cells, so the per-label counts always sum to 20. -/
lemma sum_cellCount (f : Klotski) : ∑ ρ : Piece, cellCount f ρ = 20 := by
  unfold cellCount
  have h := Finset.card_eq_sum_card_fiberwise
    (f := fun c : Fin HEIGHT × Fin WIDTH => f c.1 c.2)
    (s := Finset.univ) (t := Finset.univ) (fun x _ => Finset.mem_univ _)
  rw [← h]
  simp only [Finset.card_univ, Fintype.card_prod, Fintype.card_fin]
  rfl

/-- The empty-cell count is also unchanged (its complement is). -/
lemma cellCount_moveSpec_X0 (b : Klotski) (mv : Move) (hp : mv.piece ≠ Piece.X0)
    (HA : ∀ c : Fin HEIGHT × Fin WIDTH, b c.1 c.2 = mv.piece →
      ∃ nx ny, Direction.fromXY mv.direction c.2 c.1 = some (nx, ny) ∧
        (b ny nx = Piece.X0 ∨ b ny nx = mv.piece)) :
    cellCount (moveSpec b mv) Piece.X0 = cellCount b Piece.X0 := by
  have h1 := sum_cellCount (moveSpec b mv)
  have h2 := sum_cellCount b
  rw [← Finset.add_sum_erase Finset.univ _ (Finset.mem_univ Piece.X0)] at h1 h2
  have hsum : ∑ ρ ∈ Finset.univ.erase Piece.X0, cellCount (moveSpec b mv) ρ
      = ∑ ρ ∈ Finset.univ.erase Piece.X0, cellCount b ρ := by
    refine Finset.sum_congr rfl ?_
    intro ρ hρ
    have hne : ρ ≠ Piece.X0 := (Finset.mem_erase.mp hρ).1
    by_cases hpc : ρ = mv.piece
    · subst hpc
      exact cellCount_moveSpec_piece b mv hp HA
    · exact cellCount_moveSpec_other b mv HA ρ hpc hne
  omega

/-- Full count preservation. -/
lemma cellCount_moveSpec (b : Klotski) (mv : Move) (hp : mv.piece ≠ Piece.X0)
    (HA : ∀ c : Fin HEIGHT × Fin WIDTH, b c.1 c.2 = mv.piece →
      ∃ nx ny, Direction.fromXY mv.direction c.2 c.1 = some (nx, ny) ∧
        (b ny nx = Piece.X0 ∨ b ny nx = mv.piece))
    (ρ : Piece) : cellCount (moveSpec b mv) ρ = cellCount b ρ := by
  by_cases hX : ρ = Piece.X0
  · subst hX
    exact cellCount_moveSpec_X0 b mv hp HA
  · by_cases hpc : ρ = mv.piece
    · subst hpc
      exact cellCount_moveSpec_piece b mv hp HA
    · exact cellCount_moveSpec_other b mv HA ρ hpc hX

/-! ### Claims about Klotski -/

/-- Modelled from claim C8's wording: the move would take some cell of the
piece out of bounds, or onto an occupied non-empty cell — any target cell
that is not `X0`, including a cell of the moving piece itself. -/
def specExcludedLiteral (b : Klotski) (p : Piece) (d : Direction) : Prop :=
  ∃ c : Fin HEIGHT × Fin WIDTH, b c.1 c.2 = p ∧
    (Direction.fromXY d c.2 c.1 = none ∨
      ∃ nx ny, Direction.fromXY d c.2 c.1 = some (nx, ny) ∧ b ny nx ≠ Piece.X0)

instance (b : Klotski) (p : Piece) (d : Direction) :
    Decidable (specExcludedLiteral b p d) := by
  unfold specExcludedLiteral
  infer_instance

/-- A board holding a single vertical two-cell piece `V0` at the top-left,
with everything else empty. -/
def twoCellBoard : Klotski := fun y x =>
  if (y : Nat) ≤ 1 ∧ (x : Nat) = 0 then Piece.V0 else Piece.X0

set_option maxRecDepth 10000 in
/-- Counterexample to claim C8 as stated: on `twoCellBoard` the move
`(V0, South)` is allowed by the code (the trailing cell moves onto the
piece's own other cell, which the code does not treat as blocking), yet
that move does move a cell of the piece onto an occupied non-empty cell,
so the claimed "excluded exactly for such moves" equivalence is false. -/
theorem claim_C8_counterexample :
    ¬ ((MoveSet.is_allowed (Klotski.get_possible_moves twoCellBoard)
        ⟨Piece.V0, Direction.South⟩ = false) ↔
      specExcludedLiteral twoCellBoard Piece.V0 Direction.South) := by decide

/-- Claim C8 (amended): for every non-empty piece and direction, the move's
bit in `get_possible_moves` is set (the move is excluded) exactly when some
cell of the piece would move out of bounds or onto a cell occupied by a
*different* piece — a target cell of the moving piece itself does not
block; every other such pair is allowed, and the allowed moves are exactly
the ones the move-set iterator yields. -/
theorem claim_C8_move_generation (b : Klotski) (p : Piece) (d : Direction)
    (hp : p ≠ Piece.X0) :
    (MoveSet.is_allowed (Klotski.get_possible_moves b) ⟨p, d⟩ = false ↔
      ∃ c : Fin HEIGHT × Fin WIDTH, b c.1 c.2 = p ∧
        (Direction.fromXY d c.2 c.1 = none ∨
          ∃ nx ny, Direction.fromXY d c.2 c.1 = some (nx, ny) ∧
            b ny nx ≠ Piece.X0 ∧ b ny nx ≠ p)) ∧
    ((⟨p, d⟩ : Move) ∈ MoveSet.toList (Klotski.get_possible_moves b) ↔
      MoveSet.is_allowed (Klotski.get_possible_moves b) ⟨p, d⟩ = true) := by
  refine ⟨get_possible_moves_not_allowed b p d hp, ?_⟩
  rw [mem_toList_iff]
  constructor
  · exact And.right
  · exact fun h => ⟨hp, h⟩

set_option maxRecDepth 10000 in
/-- Witness for claim C8, at the initial board with the move `(C0, South)`. -/
theorem claim_C8_witness :
    Piece.C0 ≠ Piece.X0 ∧
    ((MoveSet.is_allowed (Klotski.get_possible_moves INITIAL_BOARD)
        ⟨Piece.C0, Direction.South⟩ = false ↔
      ∃ c : Fin HEIGHT × Fin WIDTH, INITIAL_BOARD c.1 c.2 = Piece.C0 ∧
        (Direction.fromXY Direction.South c.2 c.1 = none ∨
          ∃ nx ny, Direction.fromXY Direction.South c.2 c.1 = some (nx, ny) ∧
            INITIAL_BOARD ny nx ≠ Piece.X0 ∧ INITIAL_BOARD ny nx ≠ Piece.C0)) ∧
    ((⟨Piece.C0, Direction.South⟩ : Move) ∈
        MoveSet.toList (Klotski.get_possible_moves INITIAL_BOARD) ↔
      MoveSet.is_allowed (Klotski.get_possible_moves INITIAL_BOARD)
        ⟨Piece.C0, Direction.South⟩ = true)) :=
  ⟨by decide, claim_C8_move_generation INITIAL_BOARD Piece.C0 Direction.South (by decide)⟩

set_option maxRecDepth 10000 in
/-- Claim C9: for every move of one of the ten real pieces, the packed
encoding is in `0..40`, decodes back to the same move, and is injective on
such moves — distinct moves get distinct bit positions. -/
theorem claim_C9_encoding : ∀ (p : Piece) (d : Direction), p ≠ Piece.X0 →
    Move.to_u64 ⟨p, d⟩ < 40 ∧
    Move.from_u64 (Move.to_u64 ⟨p, d⟩) = some ⟨p, d⟩ ∧
    ∀ (p' : Piece) (d' : Direction), p' ≠ Piece.X0 →
      Move.to_u64 ⟨p, d⟩ = Move.to_u64 ⟨p', d'⟩ → p = p' ∧ d = d' := by
  decide

/-- Witness for claim C9, at the move `(C0, North)`. -/
theorem claim_C9_witness :
    Piece.C0 ≠ Piece.X0 ∧
    (Move.to_u64 ⟨Piece.C0, Direction.North⟩ < 40 ∧
     Move.from_u64 (Move.to_u64 ⟨Piece.C0, Direction.North⟩)
       = some ⟨Piece.C0, Direction.North⟩ ∧
     ∀ (p' : Piece) (d' : Direction), p' ≠ Piece.X0 →
       Move.to_u64 ⟨Piece.C0, Direction.North⟩ = Move.to_u64 ⟨p', d'⟩ →
       Piece.C0 = p' ∧ Direction.North = d') :=
  ⟨by decide, claim_C9_encoding Piece.C0 Direction.North (by decide)⟩

/-- The board with every cell empty. -/
def allEmptyBoard : Klotski := fun _ _ => Piece.X0

set_option maxRecDepth 10000 in
/-- Counterexample to claim C10 as stated: on the all-empty board (a legal
value of the board type) every move is possible, `make_move` succeeds and
returns the all-empty board again — which has twenty empty cells, not
exactly two. -/
theorem claim_C10_counterexample :
    (⟨Piece.C0, Direction.North⟩ : Move) ∈
      MoveSet.toList (Klotski.get_possible_moves allEmptyBoard) ∧
    Klotski.make_move allEmptyBoard ⟨Piece.C0, Direction.North⟩ = some allEmptyBoard ∧
    cellCount allEmptyBoard Piece.X0 ≠ 2 := by decide

/-- Claim C10 (amended): applying a move offered by `get_possible_moves`
never panics, and preserves the number of cells of every label — in
particular a board with exactly two empty cells again has exactly two
empty cells after the move. -/
theorem claim_C10_make_move (b : Klotski) (mv : Move)
    (h : mv ∈ MoveSet.toList (Klotski.get_possible_moves b)) :
    ∃ b', Klotski.make_move b mv = some b' ∧
      (∀ ρ : Piece, cellCount b' ρ = cellCount b ρ) ∧
      (cellCount b Piece.X0 = 2 → cellCount b' Piece.X0 = 2) := by
  rw [mem_toList_iff] at h
  obtain ⟨hp, hall⟩ := h
  have HA := allowed_targets b mv hp hall
  refine ⟨moveSpec b mv, make_move_eq_moveSpec b mv hp HA, ?_, ?_⟩
  · exact cellCount_moveSpec b mv hp HA
  · intro h2
    rw [cellCount_moveSpec b mv hp HA Piece.X0]
    exact h2

set_option maxRecDepth 10000 in
/-- Witness for claim C10, at the initial board with the move `(C0, South)`. -/
theorem claim_C10_witness :
    (⟨Piece.C0, Direction.South⟩ : Move) ∈
      MoveSet.toList (Klotski.get_possible_moves INITIAL_BOARD) ∧
    ∃ b', Klotski.make_move INITIAL_BOARD ⟨Piece.C0, Direction.South⟩ = some b' ∧
      (∀ ρ : Piece, cellCount b' ρ = cellCount INITIAL_BOARD ρ) ∧
      (cellCount INITIAL_BOARD Piece.X0 = 2 → cellCount b' Piece.X0 = 2) :=
  ⟨by decide, claim_C10_make_move INITIAL_BOARD ⟨Piece.C0, Direction.South⟩ (by decide)⟩
